import Mathlib

/-!
Verification of cli-box-prompt.

A shallow embedding of `src/index.js` (the selection prompt `pickBox`, the text
input prompt `inputBox` and their helpers) together with theorems about it.

Conventions of the embedding:

* JavaScript values are the inductive type `JSVal`.  A number is a safe integer
  (decimal `String(n)`), `NaN`, or any other number, which is known by the text
  `String` makes of it; negative zero is identified with zero.  An array is a
  list of elements, or a list of slots when it has holes.  An object is the
  list of its own enumerable string-keyed properties in `Object.entries` order;
  a function carries its source text only.
* The handler `onData` mutates `state` and performs effects (`cleanup`,
  `render`, `resolve`, `process.exit`).  It is embedded as a pure function that
  returns the state after the call and the list of effects in program order.
* The builtin `toLowerCase` is the parameter `lower` of `onDataWith`; `onData`
  is the handler for the lowercasing of the ASCII letters.
* A thrown `Error` is `Except.error` with the message; reading a field of
  `undefined` (a `TypeError`) is `none`.
* The text a caller passes and the chunks read from the terminal are
  well-formed and are Lean strings.  The input of the text prompt, which `slice`
  cuts, is a `JSString`, the sequence of its UTF-16 code units, and so are the
  lines and the value made from it.
* A regular expression is the matcher of its pattern together with the flags
  `global`, `sticky` and `unicode`; its `lastIndex` slot is kept in the state
  of the text input prompt, and `test` follows the builtin search loop.
-/

namespace CliBoxPrompt

/-! ## JavaScript values -/

/-- An integer in the range in which every integer is a JavaScript number and
`String(n)` is its decimal notation: the absolute value is below `2 ^ 53`. -/
structure SafeInt where
  val : Int
  safe : val.natAbs < 9007199254740992

instance (n : Nat) : OfNat SafeInt n where
  ofNat :=
    { val := ((n % 9007199254740992 : Nat) : Int)
      safe := by
        rw [Int.natAbs_ofNat]
        exact Nat.mod_lt n (by decide) }

/-- JavaScript values inspected by the prompt code.  A number is `num n` when
it is a safe integer (negative zero counts as zero), `nan` when it is `NaN`, and
otherwise `number text`, where `text` is what `String` makes of it, such as
`1.5`, `1e+21` or `Infinity`.  An array is `arr items` when it has no holes and
`sparse slots` in general, a slot being `none` for a hole. -/
inductive JSVal where
  | undefined
  | null
  | bool (b : Bool)
  | num (n : SafeInt)
  | nan
  | number (text : String)
  | str (s : String)
  | fn (src : String)
  | arr (items : List JSVal)
  | sparse (slots : List (Option JSVal))
  | obj (entries : List (String × JSVal))

namespace JSVal

/-- The result of `typeof v`. -/
def typeOf : JSVal → String
  | undefined => "undefined"
  | null => "object"
  | bool _ => "boolean"
  | num _ => "number"
  | nan => "number"
  | number _ => "number"
  | str _ => "string"
  | fn _ => "function"
  | arr _ => "object"
  | sparse _ => "object"
  | obj _ => "object"

/-- The test `v === undefined`. -/
def isUndefined : JSVal → Bool
  | undefined => true
  | _ => false

/-- The test `v === null`. -/
def isNull : JSVal → Bool
  | null => true
  | _ => false

/-- The result of `Array.isArray(v)`. -/
def isArray : JSVal → Bool
  | arr _ => true
  | sparse _ => true
  | _ => false

/-- A key-value mapping: an object that is neither `null` nor an array. -/
def isMapping : JSVal → Bool
  | obj _ => true
  | _ => false

/-- Truthiness: what `!v`, `v || w` and `v ? a : b` test. -/
def truthy : JSVal → Bool
  | undefined => false
  | null => false
  | bool b => b
  | num n => n.val != 0
  | nan => false
  | number _ => true
  | str s => s != ""
  | fn _ => true
  | arr _ => true
  | sparse _ => true
  | obj _ => true

/-- Lookup of an own property in the entry list of an object. -/
def lookupEntry (name : String) : List (String × JSVal) → JSVal
  | [] => undefined
  | (k, v) :: rest => if k = name then v else lookupEntry name rest

/-- The property read `base.name` for the names `value`, `label` and
`description`, which neither arrays nor `Object.prototype` define. -/
def getProp (base : JSVal) (name : String) : JSVal :=
  match base with
  | obj entries => lookupEntry name entries
  | _ => undefined

mutual
/-- The conversion `String(v)`. -/
def toStr : JSVal → String
  | undefined => "undefined"
  | null => "null"
  | bool true => "true"
  | bool false => "false"
  | num n => toString n.val
  | nan => "NaN"
  | number text => text
  | str s => s
  | fn src => src
  | arr items => String.intercalate "," (joinParts items)
  | sparse slots => String.intercalate "," (joinSlots slots)
  | obj _ => "[object Object]"
/-- The pieces `Array.prototype.join` concatenates: `null` and `undefined`
elements contribute the empty string. -/
def joinParts : List JSVal → List String
  | [] => []
  | undefined :: rest => "" :: joinParts rest
  | null :: rest => "" :: joinParts rest
  | v :: rest => toStr v :: joinParts rest
/-- The pieces `Array.prototype.join` concatenates for an array given slot by
slot: a hole contributes the empty string too. -/
def joinSlots : List (Option JSVal) → List String
  | [] => []
  | none :: rest => "" :: joinSlots rest
  | some undefined :: rest => "" :: joinSlots rest
  | some null :: rest => "" :: joinSlots rest
  | some v :: rest => toStr v :: joinSlots rest
end

end JSVal

open JSVal

/-! ## Choice normalizer -/

/-- A normalized choice, the record pushed by `pushEntry`. -/
structure Choice where
  key : String
  label : String
  value : JSVal
  description : String

/-- The test `typeof item === 'object' && item !== null` of `pushEntry`: the
item is a record, not a plain value. -/
def isRecord (item : JSVal) : Bool :=
  item.typeOf == "object" && !item.isNull

/-- The object `pushEntry` reads its fields from: the item itself when it is a
record, otherwise the wrapper whose only field is `value`. -/
def entryBase (item : JSVal) : JSVal :=
  if isRecord item then item else obj [("value", item)]

/-- The closure `pushEntry` of `normalizeChoices`, returning the record it pushes. -/
def pushEntry (key : String) (item : JSVal) (idx : Nat) : Choice :=
  let base := entryBase item
  let value := if (getProp base "value").isUndefined = false then getProp base "value"
    else getProp base "label"
  let label := if (getProp base "label").isUndefined = false then getProp base "label"
    else str (toStr value)
  let description := if (getProp base "description").truthy then getProp base "description"
    else str ""
  { key := if key ≠ "" then key else toString (idx + 1)
    label := toStr label
    value := value
    description := if description.truthy then toStr description else "" }

/-- The loop `raw.forEach((item, idx) => pushEntry(String(idx + 1), item, idx))`,
started at index `idx`. -/
def pushArray : Nat → List JSVal → List Choice
  | _, [] => []
  | idx, item :: rest => pushEntry (toString (idx + 1)) item idx :: pushArray (idx + 1) rest

/-- The loop `Object.entries(raw).forEach(([key, item], idx) => pushEntry(String(key), item, idx))`,
started at index `idx`. -/
def pushEntries : Nat → List (String × JSVal) → List Choice
  | _, [] => []
  | idx, (key, item) :: rest => pushEntry key item idx :: pushEntries (idx + 1) rest

/-- The loop `raw.forEach((item, idx) => pushEntry(String(idx + 1), item, idx))`
over an array given slot by slot, started at index `idx`: `forEach` does not
call back for a hole, and the index still counts it. -/
def pushSparse : Nat → List (Option JSVal) → List Choice
  | _, [] => []
  | idx, none :: rest => pushSparse (idx + 1) rest
  | idx, some item :: rest =>
    pushEntry (toString (idx + 1)) item idx :: pushSparse (idx + 1) rest

/-- The function `normalizeChoices`. -/
def normalizeChoices (raw : JSVal) : Except String (List Choice) :=
  if raw.truthy = false then Except.error "choices is required"
  else match raw with
    | arr items => Except.ok (pushArray 0 items)
    | sparse slots => Except.ok (pushSparse 0 slots)
    | obj entries => Except.ok (pushEntries 0 entries)
    | _ => Except.error "choices must be an array or an object map."

/-! ## Index wrap-around -/

/-- The function `clampIndex`; `%` is the truncated remainder. -/
def clampIndex (idx length : Int) : Int :=
  if length = 0 then 0
  else
    let mod := Int.tmod idx length
    if mod < 0 then mod + length else mod

/-! ## Selection prompt state -/

/-- The method `toLowerCase` restricted to the ASCII letters: it is the builtin
on every text whose cased letters are all ASCII. -/
def toLowerCase (s : String) : String :=
  String.mk (s.data.map Char.toLower)

/-- The text-styling collaborator `chalk`: the palette functions reachable as
`chalk[name]`, and the three the prompts call by name. -/
structure Chalk where
  palette : String → Option (String → String)
  cyan : String → String
  gray : String → String
  red : String → String

/-- The option `selectedColor`: a custom transform, a palette name, or anything else. -/
inductive SelectedColor where
  | custom (f : String → String)
  | named (name : String)
  | other

/-- The function `buildHighlighter`. -/
def buildHighlighter (chalk : Chalk) : SelectedColor → String → String
  | SelectedColor.custom f => f
  | SelectedColor.named name =>
    match chalk.palette name with
    | some f => fun text => f text
    | none => fun text => chalk.cyan text
  | SelectedColor.other => fun text => chalk.cyan text

/-- The options object handed to `pickBox`.  An absent string option is the
empty string (both are falsy), an absent `confirm`, `showFooterHint`,
`defaultIndex` or `boxWidth` is `none`. -/
structure Opts where
  choices : JSVal
  defaultIndex : Option Int
  question : String
  borderStyle : String
  confirm : Option Bool
  descriptionPlacement : String
  descriptionDisplay : String
  showFooterHint : Option Bool
  boxWidth : Option Int
  selectedColor : SelectedColor

/-- The state object built by `createState`. -/
structure State where
  question : String
  choices : List Choice
  selectedIndex : Int
  borderStyle : String
  confirm : Bool
  descriptionPlacement : String
  descriptionDisplay : String
  showFooterHint : Bool
  boxWidth : Option Int
  highlightFn : String → String
  confirming : Bool
  hintText : String
  mode : String

/-- The function `createState`. -/
def createState (chalk : Chalk) (opts : Opts) : Except String State :=
  match normalizeChoices opts.choices with
  | Except.error e => Except.error e
  | Except.ok choices =>
    if choices.length = 0 then Except.error "choices must not be empty."
    else
      Except.ok
        { question := opts.question
          choices := choices
          selectedIndex := clampIndex (opts.defaultIndex.getD 0) choices.length
          borderStyle := if opts.borderStyle ≠ "" then opts.borderStyle else "round"
          confirm := opts.confirm != some false
          descriptionPlacement :=
            if opts.descriptionPlacement ≠ "" then opts.descriptionPlacement else "inline"
          descriptionDisplay :=
            if opts.descriptionDisplay ≠ "" then opts.descriptionDisplay else "selected"
          showFooterHint := opts.showFooterHint != some false
          boxWidth := opts.boxWidth
          highlightFn := buildHighlighter chalk opts.selectedColor
          confirming := false
          hintText := "Use arrows or hotkeys, Enter to choose."
          mode := "single" }

/-- The value a selection prompt resolves with. -/
structure Resolution where
  index : Int
  value : JSVal
  key : String
  label : String

/-- The array read `choices[i]`: `none` is `undefined`. -/
def choiceAt (choices : List Choice) (i : Int) : Option Choice :=
  if 0 ≤ i then choices[i.toNat]? else none

/-- The function `finalizeSingle`; `none` is the `TypeError` of reading a field
of an undefined choice. -/
def finalizeSingle (state : State) : Option Resolution :=
  match choiceAt state.choices state.selectedIndex with
  | some choice =>
    some { index := state.selectedIndex, value := choice.value, key := choice.key,
           label := choice.label }
  | none => none

/-- The observable effects of one call of the keystroke handler. -/
inductive Effect where
  | cleanup
  | exit (code : Nat)
  | render
  | resolve (r : Resolution)
  | throwTypeError

/-- The statement `resolve(finalizeSingle(state))`. -/
def resolveEffect (state : State) : Effect :=
  match finalizeSingle state with
  | some r => Effect.resolve r
  | none => Effect.throwTypeError

/-- The call `choices.findIndex(pred)`, which is `-1` when nothing matches. -/
def findIndex (pred : Choice → Bool) (choices : List Choice) : Int :=
  match choices.findIdx? pred with
  | some i => (i : Int)
  | none => -1

/-- The handler `onData` of `runPrompt`: the state after the call and the
effects it performed, in order.  The builtin `String.prototype.toLowerCase`,
whose case mapping covers all of Unicode, is the parameter `lower`. -/
def onDataWith (lower : String → String) (state : State) (str : String) :
    State × List Effect :=
  if str = "\u0003" then (state, [Effect.cleanup, Effect.exit 1])
  else if state.confirming then
    if str = "\r" ∨ str = "\n" ∨ lower str = "y" then
      (state, [Effect.cleanup, Effect.render, resolveEffect state])
    else if lower str = "n" then
      ({ state with confirming := false }, [Effect.render])
    else (state, [])
  else if str = "\u001b[A" then
    ({ state with selectedIndex := clampIndex (state.selectedIndex - 1) state.choices.length },
      [Effect.render])
  else if str = "\u001b[B" then
    ({ state with selectedIndex := clampIndex (state.selectedIndex + 1) state.choices.length },
      [Effect.render])
  else
    let hotkeyHit :=
      findIndex (fun choice => lower choice.key == lower str) state.choices
    if hotkeyHit ≠ -1 then
      let picked := { state with selectedIndex := hotkeyHit }
      if picked.confirm then ({ picked with confirming := true }, [Effect.render])
      else (picked, [Effect.cleanup, Effect.render, resolveEffect picked])
    else if str = "\r" ∨ str = "\n" then
      if state.confirm then ({ state with confirming := true }, [Effect.render])
      else (state, [Effect.cleanup, Effect.render, resolveEffect state])
    else (state, [])

/-- The handler `onData` of `runPrompt` for keys and keystrokes whose cased
letters are ASCII, on which `toLowerCase` is the builtin. -/
def onData (state : State) (str : String) : State × List Effect :=
  onDataWith toLowerCase state str

/-- Whether the handler detached itself (`cleanup` ran): no later keystroke
reaches it. -/
def detached (effects : List Effect) : Bool :=
  effects.any fun e =>
    match e with
    | Effect.cleanup => true
    | _ => false

/-- The handler run over a sequence of keystrokes, for as long as it is attached:
the final state and all effects in order. -/
def runKeys : State → List String → State × List Effect
  | state, [] => (state, [])
  | state, chunk :: rest =>
    let r := onData state chunk
    if detached r.2 then r
    else
      let r2 := runKeys r.1 rest
      (r2.1, r.2 ++ r2.2)

/-- The states a prompt built from `opts` can be in: the state `createState`
returns, and every state the handler leaves behind while it is attached. -/
inductive Reachable (chalk : Chalk) (opts : Opts) : State → Prop where
  | init (s : State) : createState chalk opts = Except.ok s → Reachable chalk opts s
  | step (s : State) (str : String) :
      Reachable chalk opts s → Reachable chalk opts (onData s str).1

/-! ## Render projection of the selection prompt -/

/-- The pieces of a character list between line feeds: never empty. -/
def splitNewlineChars : List Char → List (List Char)
  | [] => [[]]
  | c :: rest =>
    if c = '\n' then [] :: splitNewlineChars rest
    else
      match splitNewlineChars rest with
      | line :: lines => (c :: line) :: lines
      | [] => [[c]]

/-- The call `String(text).split('\n')`. -/
def splitLines (text : String) : List String :=
  (splitNewlineChars text.data).map String.mk

/-- The callback of `choices.map` in `buildInlineDescriptions`, for the choice at
position `idx`. -/
def inlineDescriptionOf (selectedIndex : Int) (descriptionDisplay : String) (choice : Choice)
    (idx : Nat) : List String :=
  if choice.description = "" then []
  else if descriptionDisplay = "selected" ∧ (idx : Int) ≠ selectedIndex then []
  else splitLines choice.description

/-- The call `choices.map((choice, idx) => ...)` of `buildInlineDescriptions`,
started at index `idx`. -/
def mapInlineDescriptions (selectedIndex : Int) (descriptionDisplay : String) :
    Nat → List Choice → List (List String)
  | _, [] => []
  | idx, choice :: rest =>
    inlineDescriptionOf selectedIndex descriptionDisplay choice idx ::
      mapInlineDescriptions selectedIndex descriptionDisplay (idx + 1) rest

/-- The function `buildInlineDescriptions`. -/
def buildInlineDescriptions (choices : List Choice) (selectedIndex : Int)
    (descriptionDisplay descriptionPlacement : String) : List (List String) :=
  if descriptionPlacement ≠ "inline" then []
  else if descriptionDisplay = "none" then []
  else mapInlineDescriptions selectedIndex descriptionDisplay 0 choices

/-- The read `inlineDescriptions[idx] || []` of `render`. -/
def inlineDescriptionsAt (inlineDescriptions : List (List String)) (idx : Nat) : List String :=
  (inlineDescriptions[idx]?).getD []

/-- The footer lines `buildFooterLines` collects from the descriptions. -/
def footerDescriptions (choices : List Choice) (selectedIndex : Int)
    (descriptionDisplay descriptionPlacement : String) : List String :=
  if descriptionPlacement = "footer" ∧ descriptionDisplay ≠ "none" then
    if descriptionDisplay = "always" then
      (choices.filter fun choice => choice.description != "").map fun choice =>
        choice.key ++ ") " ++ choice.description
    else if descriptionDisplay = "selected" then
      match choiceAt choices selectedIndex with
      | some choice => if choice.description ≠ "" then [choice.description] else []
      | none => []
    else []
  else []

/-- The function `buildFooterLines`, its options object spelled out. -/
def buildFooterLines (choices : List Choice) (selectedIndex : Int)
    (descriptionDisplay descriptionPlacement : String) (showFooterHint : Bool)
    (hintText : String) (confirming : Bool) : List String :=
  footerDescriptions choices selectedIndex descriptionDisplay descriptionPlacement ++
    (if confirming then ["Enter or y to confirm, n to go back."]
      else if showFooterHint then [hintText]
      else [])

/-- The line `render` pushes for the choice at position `idx`. -/
def choiceLine (state : State) (choice : Choice) (idx : Nat) : String :=
  let indicator := if (idx : Int) = state.selectedIndex then ">" else " "
  let pre := indicator ++ "   " ++ (if choice.key ≠ "" then choice.key ++ ") " else "")
  let lineText := pre ++ choice.label
  if (idx : Int) = state.selectedIndex then state.highlightFn lineText else lineText

/-- The lines `render` pushes for the description lines of the choice at `idx`. -/
def descriptionLines (state : State) (descLines : List String) (idx : Nat) : List String :=
  descLines.map fun desc =>
    let descText := "        " ++ desc
    if (idx : Int) = state.selectedIndex then state.highlightFn descText else descText

/-- The loop `choices.forEach((choice, idx) => ...)` of `render`, started at
index `idx`: the lines it pushes. -/
def choiceBlocks (state : State) (inlineDescriptions : List (List String)) :
    Nat → List Choice → List String
  | _, [] => []
  | idx, choice :: rest =>
    (choiceLine state choice idx ::
        descriptionLines state (inlineDescriptionsAt inlineDescriptions idx) idx) ++
      choiceBlocks state inlineDescriptions (idx + 1) rest

/-- The function `render`: the lines it hands to the box renderer. -/
def render (state : State) : List String :=
  let inlineDescriptions := buildInlineDescriptions state.choices state.selectedIndex
    state.descriptionDisplay state.descriptionPlacement
  let footerLines := buildFooterLines state.choices state.selectedIndex state.descriptionDisplay
    state.descriptionPlacement state.showFooterHint state.hintText state.confirming
  splitLines state.question ++ [""] ++ choiceBlocks state inlineDescriptions 0 state.choices ++
    (if footerLines.length ≠ 0 then "" :: footerLines else [])

/-! ## Text input prompt -/

/-- A JavaScript string as such: the sequence of its UTF-16 code units.  It is
what `length` counts and `slice` cuts, and it may hold half of a surrogate
pair. -/
structure JSString where
  units : List Nat
deriving DecidableEq

/-- The UTF-16 code units of a character: one unit, or a surrogate pair for a
character beyond the Basic Multilingual Plane. -/
def utf16Char (c : Char) : List Nat :=
  if c.toNat < 65536 then [c.toNat]
  else [55296 + (c.toNat - 65536) / 1024, 56320 + (c.toNat - 65536) % 1024]

/-- The UTF-16 code units of a list of characters. -/
def utf16Units : List Char → List Nat
  | [] => []
  | c :: rest => utf16Char c ++ utf16Units rest

/-- A well-formed text as a JavaScript string. -/
def utf16 (text : String) : JSString :=
  { units := utf16Units text.data }

instance : Coe String JSString where
  coe := utf16

instance : Append JSString where
  append a b := { units := a.units ++ b.units }

/-- The property `length` of a string. -/
def JSString.length (s : JSString) : Nat :=
  s.units.length

/-- The call `s.slice(0, -1)`: the string without its last code unit. -/
def JSString.sliceLast (s : JSString) : JSString :=
  { units := s.units.dropLast }

/-- A regular expression object: the matcher of its pattern, which tries a
match that starts exactly at a position of the input (a list of code units) and
returns the end position, and the flags `global` and `sticky`; `unicode` says
whether the flag `u` or `v` is set. -/
structure RegExp where
  matcher : List Nat → Nat → Option Nat
  global : Bool
  sticky : Bool
  unicode : Bool

/-- The builtin operation `AdvanceStringIndex`: the next position, which in
unicode mode lies behind a whole surrogate pair. -/
def advanceStringIndex (input : List Nat) (index : Nat) (unicode : Bool) : Nat :=
  if unicode = false then index + 1
  else if index + 1 ≥ input.length then index + 1
  else
    match input[index]?, input[index + 1]? with
    | some first, some second =>
      if 55296 ≤ first ∧ first ≤ 56319 ∧ 56320 ≤ second ∧ second ≤ 57343 then index + 2
      else index + 1
    | _, _ => index + 1

/-- The search loop of the builtin `RegExp.prototype.exec`: fail when `pos` is
behind the end of the input, else try the matcher at `pos`, then, unless the
pattern is sticky, at the positions that follow.  Every round moves `pos`
forward, so a `fuel` above the length of the input is never used up. -/
def regExpSearch (re : RegExp) (input : List Nat) : Nat → Nat → Option Nat
  | 0, _ => none
  | fuel + 1, pos =>
    if pos > input.length then none
    else
      match re.matcher input pos with
      | some e => some e
      | none =>
        if re.sticky then none
        else regExpSearch re input fuel (advanceStringIndex input pos re.unicode)

/-- The builtin `test` of a regular expression whose `lastIndex` slot holds
`lastIndex`: the result and the `lastIndex` it leaves behind. -/
def regExpTest (re : RegExp) (lastIndex : Nat) (input : JSString) : Bool × Nat :=
  let start := if re.global || re.sticky then lastIndex else 0
  match regExpSearch re input.units (input.length + 2) start with
  | some e => (true, if re.global || re.sticky then e else lastIndex)
  | none => (false, if re.global || re.sticky then 0 else lastIndex)

/-- The state object of `runInput`; `lastIndex` is the slot of that name inside
the object `validationRegex` refers to. -/
structure InputState where
  question : String
  borderStyle : String
  boxWidth : Option Int
  showFooterHint : Bool
  hintText : String
  placeholder : String
  validationRegex : Option RegExp
  lastIndex : Nat
  invalidMessage : String
  input : JSString
  cursor : String
  cursorVisible : Bool

/-- The function `isInputValid`: its result and the state it leaves. -/
def isInputValid (state : InputState) : Bool × InputState :=
  match state.validationRegex with
  | none => (true, state)
  | some re =>
    let lastIndex := if re.global then 0 else state.lastIndex
    let r := regExpTest re lastIndex state.input
    (r.1, { state with lastIndex := r.2 })

/-- The footer lines `renderInput` builds once it knows `matchesPattern`. -/
def inputFooterLines (chalk : Chalk) (state : InputState) (matchesPattern : Bool) :
    List JSString :=
  let shouldWarn := state.validationRegex.isSome && !matchesPattern
  (if shouldWarn then [utf16 (chalk.red state.invalidMessage)] else []) ++
    (if state.showFooterHint then [utf16 state.hintText] else [])

/-- The function `renderInput`: the state it leaves and the lines it hands to
the box renderer. -/
def renderInput (chalk : Chalk) (state : InputState) : InputState × List JSString :=
  let valid := isInputValid state
  let footerLines := inputFooterLines chalk state valid.1
  let hasInput := state.input.length > 0
  let cursorChar := if state.cursorVisible then state.cursor else " "
  let inputDisplay :=
    if hasInput then state.input
    else if state.placeholder ≠ "" then utf16 (chalk.gray state.placeholder)
    else utf16 ""
  let cursorDisplay := if ¬ hasInput ∧ state.placeholder ≠ "" then "" else cursorChar
  (valid.2,
    (splitLines state.question).map utf16 ++ [utf16 ""] ++
      [utf16 "> " ++ inputDisplay ++ utf16 cursorDisplay] ++
      (if footerLines.length ≠ 0 then utf16 "" :: footerLines else []))

/-- The option `pattern` or `validationPattern`: absent (`null` or `undefined`),
a regular expression, a string, or anything else. -/
inductive PatternArg where
  | absent
  | regExp (re : RegExp)
  | source (text : String)
  | other

/-- The options object handed to `inputBox`; an absent string option is the
empty string. -/
structure InputOpts where
  question : String
  borderStyle : String
  boxWidth : Option Int
  showFooterHint : Option Bool
  hintText : String
  placeholder : String
  pattern : PatternArg
  validationPattern : PatternArg
  invalidMessage : String

/-- The observable effects of one call of the keystroke handler of `runInput`. -/
inductive InputEffect where
  | cleanup
  | exit (code : Nat)
  | render (lines : List JSString)
  | resolve (value : JSString)

namespace runInput

/-- The pattern construction of `runInput`.  `compile` is the constructor
`new RegExp(source)`, which gives the matcher or the message of its error. -/
def validationRegex (compile : String → Except String (List Nat → Nat → Option Nat))
    (options : InputOpts) : Except String (Option RegExp) :=
  let rawPattern :=
    match options.pattern with
    | PatternArg.absent => options.validationPattern
    | given => given
  match rawPattern with
  | PatternArg.absent => Except.ok none
  | PatternArg.regExp re =>
    Except.ok
      (some
        { matcher := re.matcher, global := re.global, sticky := re.sticky,
          unicode := re.unicode })
  | PatternArg.source text =>
    match compile text with
    | Except.ok matcher =>
      Except.ok (some { matcher := matcher, global := false, sticky := false, unicode := false })
    | Except.error message => Except.error ("Invalid pattern: " ++ message)
  | PatternArg.other => Except.error "pattern/validationPattern must be a RegExp or string."

/-- The state `runInput` starts with. -/
def initialState (compile : String → Except String (List Nat → Nat → Option Nat))
    (options : InputOpts) : Except String InputState :=
  match validationRegex compile options with
  | Except.error e => Except.error e
  | Except.ok regex =>
    Except.ok
      { question := options.question
        borderStyle := if options.borderStyle ≠ "" then options.borderStyle else "round"
        boxWidth := options.boxWidth
        showFooterHint := options.showFooterHint != some false
        hintText :=
          if options.hintText ≠ "" then options.hintText
          else "Type your answer and press Enter."
        placeholder := options.placeholder
        validationRegex := regex
        lastIndex := 0
        invalidMessage :=
          if options.invalidMessage ≠ "" then options.invalidMessage
          else "Input does not match required format."
        input := utf16 ""
        cursor := "▌"
        cursorVisible := true }

/-- The test `str.startsWith('\u001b')`. -/
def startsWithEscape (str : String) : Bool :=
  match str.data with
  | c :: _ => c == '\x1b'
  | [] => false

/-- The handler `onData` of `runInput`: the state after the call and the
effects it performed, in order.  The chunk `str` is `buf.toString()`, a
well-formed text. -/
def onData (chalk : Chalk) (state : InputState) (str : String) :
    InputState × List InputEffect :=
  if str = "\u0003" then (state, [InputEffect.cleanup, InputEffect.exit 1])
  else if str = "\r" ∨ str = "\n" then
    let valid := isInputValid state
    if valid.1 = false then
      let r := renderInput chalk valid.2
      (r.1, [InputEffect.render r.2])
    else
      let r := renderInput chalk valid.2
      (r.1, [InputEffect.cleanup, InputEffect.render r.2, InputEffect.resolve valid.2.input])
  else if str = "\u0008" ∨ str = "\u007f" then
    let r := renderInput chalk { state with input := state.input.sliceLast }
    (r.1, [InputEffect.render r.2])
  else if startsWithEscape str then (state, [])
  else
    let r := renderInput chalk { state with input := state.input ++ utf16 str }
    (r.1, [InputEffect.render r.2])

/-- The callback of the blink timer while the prompt is active. -/
def onBlink (chalk : Chalk) (state : InputState) : InputState × List InputEffect :=
  let r := renderInput chalk { state with cursorVisible := !state.cursorVisible }
  (r.1, [InputEffect.render r.2])

/-- The handler run over a sequence of input chunks, for as long as it is
attached: the final state and all effects in order. -/
def runKeys (chalk : Chalk) : InputState → List String → InputState × List InputEffect
  | state, [] => (state, [])
  | state, chunk :: rest =>
    let r := onData chalk state chunk
    if (r.2.any fun e => match e with
      | InputEffect.cleanup => true
      | _ => false) then r
    else
      let r2 := runKeys chalk r.1 rest
      (r2.1, r.2 ++ r2.2)

end runInput

/-! ## Decimal strings -/

/-- The number a list of decimal digit characters denotes, most significant
digit first. -/
def decodeDigits : List Char → Nat
  | [] => 0
  | c :: rest => (c.toNat - 48) * 10 ^ rest.length + decodeDigits rest

/-! ## Sample inputs -/

/-- A styling collaborator that leaves every text as it is. -/
def plainChalk : Chalk :=
  { palette := fun _ => none, cyan := id, gray := id, red := id }

/-- Options with the given choices, default index and `confirm`, all else absent. -/
def sampleOpts (choices : JSVal) (defaultIndex : Option Int) (confirm : Option Bool) : Opts :=
  { choices := choices
    defaultIndex := defaultIndex
    question := ""
    borderStyle := ""
    confirm := confirm
    descriptionPlacement := ""
    descriptionDisplay := ""
    showFooterHint := none
    boxWidth := none
    selectedColor := SelectedColor.other }

/-- A state over the given choices, with the option defaults of `createState`. -/
def sampleState (choices : List Choice) (selectedIndex : Int) (confirm confirming : Bool) :
    State :=
  { question := ""
    choices := choices
    selectedIndex := selectedIndex
    borderStyle := "round"
    confirm := confirm
    descriptionPlacement := "inline"
    descriptionDisplay := "selected"
    showFooterHint := true
    boxWidth := none
    highlightFn := fun text => text
    confirming := confirming
    hintText := "Use arrows or hotkeys, Enter to choose."
    mode := "single" }

/-- Three choices with the hotkeys `a`, `b` and `c`. -/
def abcChoices : List Choice :=
  [ { key := "a", label := "Apple", value := num 1, description := "" },
    { key := "b", label := "Banana", value := num 2, description := "" },
    { key := "c", label := "Cherry", value := num 3, description := "" } ]

/-- A lowercasing that maps, beside the ASCII capitals, the capital letters of
Latin-1 (`À` to `Þ` without the sign `×`) as the builtin does. -/
def latin1Lower (s : String) : String :=
  String.mk (s.data.map fun c =>
    if (65 ≤ c.toNat ∧ c.toNat ≤ 90) ∨ (192 ≤ c.toNat ∧ c.toNat ≤ 222 ∧ c.toNat ≠ 215) then
      Char.ofNat (c.toNat + 32)
    else c)

/-- Three choices, two of whose keys differ in case only, outside ASCII. -/
def accentChoices : List Choice :=
  [ { key := "É", label := "Été", value := str "summer", description := "" },
    { key := "é", label := "école", value := str "school", description := "" },
    { key := "b", label := "Bal", value := str "ball", description := "" } ]

/-- Raw entries of the four kinds `pushEntry` tells apart: a plain value, a
record with a label only, a record with a value and a label, an empty record. -/
def mixedItems : List JSVal :=
  [str "a", obj [("label", str "L")], obj [("value", num 5), ("label", str "L")], obj []]

/-- The matcher of a pattern that is one literal text, such as `/a/`. -/
def literalMatcher (lit : List Nat) : List Nat → Nat → Option Nat :=
  fun input pos => if (input.drop pos).take lit.length = lit then some (pos + lit.length) else none

/-- The matcher of the pattern `^\d+$`. -/
def digitsMatcher : List Nat → Nat → Option Nat :=
  fun input pos =>
    if pos = 0 ∧ input ≠ [] ∧ (input.all fun u => decide (48 ≤ u ∧ u ≤ 57)) = true then
      some input.length
    else none

/-- The sticky pattern `/a/y`. -/
def stickyA : RegExp :=
  { matcher := literalMatcher [97], global := false, sticky := true, unicode := false }

/-- The pattern `/^\d+$/`. -/
def digitsRegExp : RegExp :=
  { matcher := digitsMatcher, global := false, sticky := false, unicode := false }

/-- A constructor `new RegExp(source)` that knows the source `^\d+$` only. -/
def sampleCompile (source : String) : Except String (List Nat → Nat → Option Nat) :=
  if source = "^\\d+$" then Except.ok digitsMatcher else Except.error "unsupported pattern"

/-- Options of the text input prompt with the given pattern, all else absent. -/
def sampleInputOpts (pattern : PatternArg) : InputOpts :=
  { question := ""
    borderStyle := ""
    boxWidth := none
    showFooterHint := none
    hintText := ""
    placeholder := ""
    pattern := pattern
    validationPattern := PatternArg.absent
    invalidMessage := "" }

/-- A text input state with the given pattern, match position and input, and
the option defaults of `runInput`. -/
def sampleInputState (regex : Option RegExp) (lastIndex : Nat) (input : JSString) :
    InputState :=
  { question := ""
    borderStyle := "round"
    boxWidth := none
    showFooterHint := true
    hintText := "Type your answer and press Enter."
    placeholder := ""
    validationRegex := regex
    lastIndex := lastIndex
    invalidMessage := "Input does not match required format."
    input := input
    cursor := "▌"
    cursorVisible := true }

/-! ## Index wrap-around: theorems -/

theorem tmod_gt_neg_of_pos (i n : Int) (hn : 0 < n) : -n < Int.tmod i n := by
  obtain ⟨k, rfl⟩ := Int.eq_ofNat_of_zero_le (le_of_lt hn)
  have hk : 0 < k := by exact_mod_cast hn
  cases i with
  | ofNat m =>
    have h0 : 0 ≤ Int.tmod (Int.ofNat m) (↑k) := Int.tmod_nonneg (↑k) (Int.ofNat_nonneg m)
    omega
  | negSucc m =>
    have h : Int.tmod (Int.negSucc m) (↑k) = -((Nat.succ m % k : Nat) : Int) := rfl
    rw [h]
    have := Nat.mod_lt (Nat.succ m) hk
    omega

theorem clampIndex_eq_emod (i n : Int) (hn : 0 < n) : clampIndex i n = i % n := by
  have hne : n ≠ 0 := by omega
  have hlt := Int.tmod_lt_of_pos i hn
  have hgt := tmod_gt_neg_of_pos i n hn
  have hdef := Int.tmod_def i n
  unfold clampIndex
  simp only [hne, if_false]
  split
  · next hneg =>
    have e : Int.tmod i n + n = i + n * (1 - i.tdiv n) := by rw [hdef]; ring
    rw [← Int.emod_eq_of_lt (a := Int.tmod i n + n) (b := n) (by omega) (by omega), e,
      Int.add_mul_emod_self_left]
  · next hpos =>
    have e : Int.tmod i n = i + n * (- i.tdiv n) := by rw [hdef]; ring
    rw [← Int.emod_eq_of_lt (a := Int.tmod i n) (b := n) (by omega) (by omega), e,
      Int.add_mul_emod_self_left]

/-- C1: for every integer `i` and every length `n > 0`, `clampIndex i n` is the
mathematical modulus: it lies in `[0, n)`, it is congruent to `i` modulo `n`,
and it is the only integer with these two properties. -/
theorem clampIndex_modulus (i n : Int) (hn : 0 < n) :
    0 ≤ clampIndex i n ∧ clampIndex i n < n ∧ n ∣ (clampIndex i n - i) ∧
      ∀ r : Int, 0 ≤ r → r < n → n ∣ (r - i) → r = clampIndex i n := by
  rw [clampIndex_eq_emod i n hn]
  refine ⟨Int.emod_nonneg i (by omega), Int.emod_lt_of_pos i hn, ?_, ?_⟩
  · exact Int.dvd_of_emod_eq_zero
      (Int.emod_eq_emod_iff_emod_sub_eq_zero.mp (Int.emod_emod_of_dvd i (dvd_refl n)))
  · intro r h0 h1 hd
    have h2 : r % n = i % n := Int.emod_eq_emod_iff_emod_sub_eq_zero.mpr
      (Int.emod_eq_zero_of_dvd hd)
    rw [← h2, Int.emod_eq_of_lt h0 h1]

theorem clampIndex_modulus_witness :
    0 ≤ clampIndex (-7) 3 ∧ clampIndex (-7) 3 < 3 ∧ (3 : Int) ∣ (clampIndex (-7) 3 - (-7)) ∧
      ∀ r : Int, 0 ≤ r → r < 3 → (3 : Int) ∣ (r - (-7)) → r = clampIndex (-7) 3 :=
  clampIndex_modulus (-7) 3 (by decide)

/-! ## Shared lemmas -/

theorem clampIndex_eq_of (i n r k : Int) (hn : 0 < n) (h0 : 0 ≤ r) (h1 : r < n)
    (h : r = i + n * k) : clampIndex i n = r := by
  rw [clampIndex_eq_emod i n hn, ← Int.add_mul_emod_self_left i n k, ← h,
    Int.emod_eq_of_lt h0 h1]

theorem clampIndex_range (i n : Int) (hn : 0 < n) :
    0 ≤ clampIndex i n ∧ clampIndex i n < n := by
  rw [clampIndex_eq_emod i n hn]
  exact ⟨Int.emod_nonneg i (by omega), Int.emod_lt_of_pos i hn⟩

theorem findIndex_spec (pred : Choice → Bool) (choices : List Choice) :
    (findIndex pred choices = -1 ∧ ∀ c ∈ choices, pred c = false) ∨
      ∃ i : Nat, findIndex pred choices = (i : Int) ∧
        ∃ h : i < choices.length, pred choices[i] = true ∧
          ∀ j (hj : j < i), pred (choices[j]) = false := by
  unfold findIndex
  cases hf : choices.findIdx? pred with
  | none =>
    left
    exact ⟨rfl, List.findIdx?_eq_none_iff.mp hf⟩
  | some i =>
    right
    obtain ⟨h, hp, hlt⟩ := List.findIdx?_eq_some_iff_getElem.mp hf
    exact ⟨i, rfl, h, hp, fun j hj => by simpa using hlt j hj⟩

theorem onData_choices (s : State) (str : String) : (onData s str).1.choices = s.choices := by
  unfold onData onDataWith
  simp only []
  split_ifs <;> rfl

theorem onData_index_valid (s : State) (str : String)
    (h : 0 ≤ s.selectedIndex ∧ s.selectedIndex < s.choices.length) :
    0 ≤ (onData s str).1.selectedIndex ∧
      (onData s str).1.selectedIndex < (onData s str).1.choices.length := by
  rw [onData_choices]
  have hn : (0 : Int) < s.choices.length := by omega
  unfold onData onDataWith
  simp only []
  rcases findIndex_spec (fun choice => toLowerCase choice.key == toLowerCase str) s.choices with
    ⟨hm, -⟩ | ⟨i, hi, hlt, -, -⟩
  · rw [hm]
    split_ifs <;> first | exact h | exact clampIndex_range _ _ hn | simp_all
  · rw [hi]
    split_ifs <;> first | exact h | exact clampIndex_range _ _ hn | (simp; omega)

theorem createState_index_valid (chalk : Chalk) (opts : Opts) (s : State)
    (h : createState chalk opts = Except.ok s) :
    0 ≤ s.selectedIndex ∧ s.selectedIndex < s.choices.length := by
  unfold createState at h
  split at h
  · cases h
  · split at h
    · cases h
    · next choices _ hlen =>
      cases h
      exact clampIndex_range _ _ (by omega)

theorem finalizeSingle_of_valid (s : State)
    (h : 0 ≤ s.selectedIndex ∧ s.selectedIndex < s.choices.length) :
    ∃ c, choiceAt s.choices s.selectedIndex = some c ∧
      finalizeSingle s =
        some { index := s.selectedIndex, value := c.value, key := c.key, label := c.label } := by
  have hlt : s.selectedIndex.toNat < s.choices.length := by omega
  refine ⟨s.choices[s.selectedIndex.toNat], ?_, ?_⟩
  · simp [choiceAt, h.1, List.getElem?_eq_getElem hlt]
  · simp [finalizeSingle, choiceAt, h.1, List.getElem?_eq_getElem hlt]

/-! ## Selection index invariant -/

/-- C2: in every state reachable from a successful `createState` (any integer or
absent `defaultIndex`) by any sequence of keystrokes, `selectedIndex` lies in
`[0, choices.length)`, so `choices[selectedIndex]` is defined and
`finalizeSingle` returns the data of that choice. -/
theorem reachable_selectedIndex_valid (chalk : Chalk) (opts : Opts) (s : State)
    (h : Reachable chalk opts s) :
    0 ≤ s.selectedIndex ∧ s.selectedIndex < s.choices.length ∧
      ∃ c, choiceAt s.choices s.selectedIndex = some c ∧
        finalizeSingle s =
          some { index := s.selectedIndex, value := c.value, key := c.key, label := c.label } := by
  have hv : 0 ≤ s.selectedIndex ∧ s.selectedIndex < s.choices.length := by
    induction h with
    | init s0 h0 => exact createState_index_valid chalk opts s0 h0
    | step s1 str _ ih => exact onData_index_valid s1 str ih
  exact ⟨hv.1, hv.2, finalizeSingle_of_valid s hv⟩

theorem reachable_selectedIndex_valid_witness :
    Reachable plainChalk (sampleOpts (arr [str "a", str "b", str "c"]) (some (-1)) none)
        (onData (onData (sampleState (pushArray 0 [str "a", str "b", str "c"]) 2 true false)
          "\u001b[B").1 "2").1 ∧
      (onData (onData (sampleState (pushArray 0 [str "a", str "b", str "c"]) 2 true false)
          "\u001b[B").1 "2").1.selectedIndex = 1 ∧
      ∃ c, choiceAt (pushArray 0 [str "a", str "b", str "c"]) 1 = some c ∧
        finalizeSingle (onData (onData
            (sampleState (pushArray 0 [str "a", str "b", str "c"]) 2 true false)
            "\u001b[B").1 "2").1 =
          some { index := 1, value := c.value, key := c.key, label := c.label } :=
  have hr : Reachable plainChalk (sampleOpts (arr [str "a", str "b", str "c"]) (some (-1)) none)
      (onData (onData (sampleState (pushArray 0 [str "a", str "b", str "c"]) 2 true false)
        "\u001b[B").1 "2").1 :=
    Reachable.step _ _ (Reachable.step _ _ (Reachable.init _ rfl))
  ⟨hr, rfl, (reachable_selectedIndex_valid _ _ _ hr).2.2⟩

/-! ## Choice normalizer: theorems -/

theorem pushArray_length (items : List JSVal) (idx : Nat) :
    (pushArray idx items).length = items.length := by
  induction items generalizing idx with
  | nil => rfl
  | cons item rest ih => simp [pushArray, ih]

theorem pushArray_getElem? (items : List JSVal) (idx i : Nat) (h : i < items.length) :
    (pushArray idx items)[i]? =
      some (pushEntry (toString (idx + i + 1)) items[i] (idx + i)) := by
  induction items generalizing idx i with
  | nil => simp at h
  | cons item rest ih =>
    cases i with
    | zero => simp [pushArray]
    | succ j =>
      have hj : j < rest.length := by simpa using h
      simp only [pushArray, List.getElem?_cons_succ, List.getElem_cons_succ]
      rw [ih (idx + 1) j hj]
      have e : idx + 1 + j = idx + (j + 1) := by omega
      rw [e]

theorem pushEntries_length (entries : List (String × JSVal)) (idx : Nat) :
    (pushEntries idx entries).length = entries.length := by
  induction entries generalizing idx with
  | nil => rfl
  | cons e rest ih =>
    obtain ⟨k, item⟩ := e
    simp [pushEntries, ih]

theorem pushEntries_getElem? (entries : List (String × JSVal)) (idx i : Nat)
    (h : i < entries.length) :
    (pushEntries idx entries)[i]? = some (pushEntry entries[i].1 entries[i].2 (idx + i)) := by
  induction entries generalizing idx i with
  | nil => simp at h
  | cons e rest ih =>
    obtain ⟨k, item⟩ := e
    cases i with
    | zero => simp [pushEntries]
    | succ j =>
      have hj : j < rest.length := by simpa using h
      simp only [pushEntries, List.getElem?_cons_succ, List.getElem_cons_succ]
      rw [ih (idx + 1) j hj]
      have e : idx + 1 + j = idx + (j + 1) := by omega
      rw [e]

theorem pushSparse_length (slots : List (Option JSVal)) (idx : Nat) :
    (pushSparse idx slots).length = (slots.filterMap id).length := by
  induction slots generalizing idx with
  | nil => rfl
  | cons slot rest ih =>
    cases slot with
    | none => simpa [pushSparse] using ih (idx + 1)
    | some item => simpa [pushSparse] using ih (idx + 1)

theorem pushSparse_getElem? (slots : List (Option JSVal)) (idx i : Nat)
    (h : i < (slots.filterMap id).length) :
    ∃ pos : Nat, (pushSparse idx slots)[i]? =
      some (pushEntry (toString (pos + 1)) (slots.filterMap id)[i] pos) := by
  induction slots generalizing idx i with
  | nil => simp at h
  | cons slot rest ih =>
    cases slot with
    | none =>
      have h2 : i < (rest.filterMap id).length := by simpa using h
      obtain ⟨pos, hpos⟩ := ih (idx + 1) i h2
      exact ⟨pos, by simpa [pushSparse] using hpos⟩
    | some item =>
      cases i with
      | zero => exact ⟨idx, by simp [pushSparse]⟩
      | succ j =>
        have h2 : j < (rest.filterMap id).length := by simpa using h
        obtain ⟨pos, hpos⟩ := ih (idx + 1) j h2
        exact ⟨pos, by simpa [pushSparse] using hpos⟩

theorem entryBase_plain (item : JSVal) (h : isRecord item = false) :
    entryBase item = obj [("value", item)] := by
  simp [entryBase, h]

theorem entryBase_record (item : JSVal) (h : isRecord item = true) : entryBase item = item := by
  simp [entryBase, h]

theorem ite_isUndefined_self (v : JSVal) :
    (if v.isUndefined = false then v else undefined) = v := by
  cases v <;> rfl

theorem pushEntry_plain (item : JSVal) (idx : Nat) (h : isRecord item = false) :
    pushEntry (toString (idx + 1)) item idx =
      { key := toString (idx + 1), label := toStr item, value := item, description := "" } := by
  have hk : (if toString (idx + 1) ≠ "" then toString (idx + 1) else toString (idx + 1)) =
      toString (idx + 1) := by split <;> rfl
  have hv : getProp (obj [("value", item)]) "value" = item := rfl
  have hl : getProp (obj [("value", item)]) "label" = undefined := rfl
  have hd : getProp (obj [("value", item)]) "description" = undefined := rfl
  unfold pushEntry
  simp only [entryBase_plain item h, hv, hl, hd, hk, ite_isUndefined_self]
  rfl

theorem pushSparse_plain (slots : List (Option JSVal)) (idx : Nat)
    (hplain : ∀ item, some item ∈ slots → isRecord item = false) :
    pushSparse idx slots =
      (slots.enumFrom idx).filterMap fun p =>
        p.2.map fun item =>
          { key := toString (p.1 + 1), label := toStr item, value := item, description := "" } := by
  induction slots generalizing idx with
  | nil => rfl
  | cons slot rest ih =>
    have hrest : ∀ item, some item ∈ rest → isRecord item = false :=
      fun item h => hplain item (List.mem_cons_of_mem slot h)
    cases slot with
    | none => simpa [pushSparse, List.enumFrom_cons] using ih (idx + 1) hrest
    | some item =>
      have hitem := hplain item (List.mem_cons_self _ _)
      simp only [pushSparse, List.enumFrom_cons, List.filterMap_cons, Option.map_some']
      rw [pushEntry_plain item idx hitem, ih (idx + 1) hrest]

/-- C3, counterexample: the array `["a", , "c"]` has length 3 and a hole at
index 1.  `forEach` skips the hole, so `normalizeChoices` returns two choices,
and the second has the key `3`, not `2`. -/
theorem normalizeChoices_sparse_array :
    normalizeChoices (sparse [some (str "a"), none, some (str "c")]) =
        Except.ok
          [{ key := "1", label := "a", value := str "a", description := "" },
            { key := "3", label := "c", value := str "c", description := "" }] ∧
      ¬ ∃ choices,
        normalizeChoices (sparse [some (str "a"), none, some (str "c")]) = Except.ok choices ∧
          choices.length = [some (str "a"), none, some (str "c")].length := by
  refine ⟨rfl, ?_⟩
  rintro ⟨choices, h, hlen⟩
  have h2 : Except.ok (pushSparse 0 [some (str "a"), none, some (str "c")]) =
      (Except.ok choices : Except String (List Choice)) := h
  cases h2
  exact absurd hlen (by decide)

/-- C3 (amended): for every array of plain (non-record) values
`normalizeChoices` returns one choice for each element that is present, in array
order, holes being skipped; the choice made from the element at index `i` has
the key `String(i + 1)`, the item as value, `String(item)` as label and the empty
description.  When the array has no holes the sequence therefore has the length
of the array and its `i`-th choice is made from the `i`-th item. -/
theorem normalizeChoices_plain_array (slots : List (Option JSVal))
    (hplain : ∀ item, some item ∈ slots → isRecord item = false) :
    normalizeChoices (sparse slots) =
        Except.ok
          (slots.enum.filterMap fun p =>
            p.2.map fun item =>
              { key := toString (p.1 + 1), label := toStr item, value := item,
                description := "" }) ∧
      ∀ items : List JSVal, slots = items.map some →
        ∃ choices, normalizeChoices (arr items) = Except.ok choices ∧
          choices.length = items.length ∧
          ∀ (i : Nat) (h : i < items.length),
            choices[i]? =
              some { key := toString (i + 1), label := toStr items[i], value := items[i],
                     description := "" } := by
  constructor
  · show Except.ok (pushSparse 0 slots) = _
    rw [pushSparse_plain slots 0 hplain]
    rfl
  · intro items hitems
    refine ⟨pushArray 0 items, rfl, pushArray_length items 0, ?_⟩
    intro i h
    rw [pushArray_getElem? items 0 i h]
    simp only [Nat.zero_add]
    have hmem : some items[i] ∈ slots := by
      rw [hitems]
      exact List.mem_map_of_mem some (List.getElem_mem h)
    rw [pushEntry_plain items[i] i (hplain _ hmem)]

theorem normalizeChoices_plain_array_witness :
    normalizeChoices
        (sparse [some (str "a"), none, some (num 42), some (bool true), some null,
          some undefined, some nan, some (number "1e+21"), some (fn "() => 1")]) =
      Except.ok
        [{ key := "1", label := "a", value := str "a", description := "" },
          { key := "3", label := "42", value := num 42, description := "" },
          { key := "4", label := "true", value := bool true, description := "" },
          { key := "5", label := "null", value := null, description := "" },
          { key := "6", label := "undefined", value := undefined, description := "" },
          { key := "7", label := "NaN", value := nan, description := "" },
          { key := "8", label := "1e+21", value := number "1e+21", description := "" },
          { key := "9", label := "() => 1", value := fn "() => 1", description := "" }] ∧
      ∃ choices, normalizeChoices (arr [str "a", num 7]) = Except.ok choices ∧
        choices.length = 2 ∧
        choices[0]? = some { key := "1", label := "a", value := str "a", description := "" } ∧
        choices[1]? = some { key := "2", label := "7", value := num 7, description := "" } :=
  have hplain : ∀ item,
      some item ∈ [some (str "a"), none, some (num 42), some (bool true), some null,
        some undefined, some nan, some (number "1e+21"), some (fn "() => 1")] →
      isRecord item = false := by
    intro item hmem
    simp only [List.mem_cons, List.mem_singleton, List.not_mem_nil, or_false,
      Option.some.injEq, reduceCtorEq, false_or] at hmem
    rcases hmem with rfl | rfl | rfl | rfl | rfl | rfl | rfl | rfl <;> rfl
  have hdense : ∀ item, some item ∈ [some (str "a"), some (num 7)] →
      isRecord item = false := by
    intro item hmem
    simp only [List.mem_cons, List.mem_singleton, List.not_mem_nil, or_false,
      Option.some.injEq] at hmem
    rcases hmem with rfl | rfl <;> rfl
  have ⟨choices, hok, hlen, hget⟩ :=
    (normalizeChoices_plain_array [some (str "a"), some (num 7)] hdense).2 [str "a", num 7] rfl
  ⟨(normalizeChoices_plain_array _ hplain).1, choices, hok, hlen, hget 0 (by decide),
    hget 1 (by decide)⟩

theorem pushEntry_record (key : String) (item : JSVal) (idx : Nat) (l d : String)
    (hl : getProp item "label" = str l) (hv : (getProp item "value").isUndefined = false)
    (hd : getProp item "description" = str d) :
    pushEntry key item idx =
      { key := if key ≠ "" then key else toString (idx + 1), label := l,
        value := getProp item "value", description := d } := by
  have hrec : isRecord item = true := by
    cases item <;> first | rfl | cases hl
  unfold pushEntry
  simp only [entryBase_record item hrec, hl, hv, hd, if_true]
  by_cases hempty : d = ""
  · subst hempty
    rfl
  · have ht : (str d).truthy = true := by simpa [truthy] using hempty
    simp only [ht, if_true]
    rfl

/-- C4: for every mapping whose items are records carrying a `label`, a `value`
and a `description`, `normalizeChoices` returns one choice per entry, in entry
order; its key is the map key, or `String(i + 1)` when the map key is empty, and
its label, value and description are the fields of the record. -/
theorem normalizeChoices_record_mapping (entries : List (String × JSVal))
    (hrec : ∀ e ∈ entries, (∃ l, getProp e.2 "label" = str l) ∧
      (getProp e.2 "value").isUndefined = false ∧ ∃ d, getProp e.2 "description" = str d) :
    ∃ choices, normalizeChoices (obj entries) = Except.ok choices ∧
      choices.length = entries.length ∧
      ∀ (i : Nat) (h : i < entries.length),
        ∃ c, choices[i]? = some c ∧
          c.key = (if entries[i].1 ≠ "" then entries[i].1 else toString (i + 1)) ∧
          str c.label = getProp entries[i].2 "label" ∧
          c.value = getProp entries[i].2 "value" ∧
          str c.description = getProp entries[i].2 "description" := by
  refine ⟨pushEntries 0 entries, rfl, pushEntries_length entries 0, ?_⟩
  intro i h
  obtain ⟨⟨l, hl⟩, hv, d, hd⟩ := hrec _ (List.getElem_mem h)
  refine ⟨_, pushEntries_getElem? entries 0 i h, ?_⟩
  simp only [Nat.zero_add]
  rw [pushEntry_record entries[i].1 entries[i].2 i l d hl hv hd]
  exact ⟨rfl, hl.symm, rfl, hd.symm⟩

theorem normalizeChoices_record_mapping_witness :
    (∀ e ∈ [("x", obj [("label", str "Foo"), ("value", num 1), ("description", str "d")]),
          ("", obj [("label", str "Bar"), ("value", null), ("description", str "")])],
        (∃ l, getProp e.2 "label" = str l) ∧
          (getProp e.2 "value").isUndefined = false ∧ ∃ d, getProp e.2 "description" = str d) ∧
      ∃ choices,
        normalizeChoices
            (obj [("x", obj [("label", str "Foo"), ("value", num 1), ("description", str "d")]),
              ("", obj [("label", str "Bar"), ("value", null), ("description", str "")])]) =
          Except.ok choices ∧
        choices.length = 2 ∧
        (∃ c, choices[0]? = some c ∧ c.key = "x" ∧ str c.label = str "Foo" ∧
          c.value = num 1 ∧ str c.description = str "d") ∧
        ∃ c, choices[1]? = some c ∧ c.key = "2" ∧ str c.label = str "Bar" ∧
          c.value = null ∧ str c.description = str "" :=
  have hrec : ∀ e ∈ [("x", obj [("label", str "Foo"), ("value", num 1), ("description", str "d")]),
        ("", obj [("label", str "Bar"), ("value", null), ("description", str "")])],
      (∃ l, getProp e.2 "label" = str l) ∧
        (getProp e.2 "value").isUndefined = false ∧ ∃ d, getProp e.2 "description" = str d := by
    intro e hmem
    simp only [List.mem_cons, List.mem_singleton, List.not_mem_nil, or_false] at hmem
    rcases hmem with rfl | rfl
    · exact ⟨⟨"Foo", rfl⟩, rfl, "d", rfl⟩
    · exact ⟨⟨"Bar", rfl⟩, rfl, "", rfl⟩
  have ⟨choices, hok, hlen, hget⟩ := normalizeChoices_record_mapping _ hrec
  ⟨hrec, choices, hok, hlen, hget 0 (by decide), hget 1 (by decide)⟩

/-- C5, counterexample: the normalization of the empty array succeeds with the
empty sequence; it is not an error. -/
theorem normalizeChoices_empty_array_ok :
    normalizeChoices (arr []) = Except.ok [] ∧
      ¬ ∃ msg : String, normalizeChoices (arr []) = Except.error msg := by
  refine ⟨rfl, ?_⟩
  rintro ⟨msg, h⟩
  cases h

/-- C5 (amended): `normalizeChoices` fails for `null`, `undefined`, every number
and every other input that is neither an array nor a key-value mapping.  For an
input whose choice sequence is empty, such as `[]`, `normalizeChoices` returns
the empty sequence and it is `createState` that fails, with
`choices must not be empty.`; an error of `normalizeChoices` is passed on by
`createState`. -/
theorem normalizeChoices_failures :
    normalizeChoices null = Except.error "choices is required" ∧
    normalizeChoices undefined = Except.error "choices is required" ∧
    (∀ raw : JSVal, raw.typeOf = "number" → ∃ msg, normalizeChoices raw = Except.error msg) ∧
    normalizeChoices nan = Except.error "choices is required" ∧
    (∀ raw : JSVal, raw.isArray = false → raw.isMapping = false →
      ∃ msg, normalizeChoices raw = Except.error msg) ∧
    (∀ (chalk : Chalk) (opts : Opts), normalizeChoices opts.choices = Except.ok [] →
      createState chalk opts = Except.error "choices must not be empty.") ∧
    (∀ (chalk : Chalk) (opts : Opts) (msg : String),
      normalizeChoices opts.choices = Except.error msg →
      createState chalk opts = Except.error msg) := by
  refine ⟨rfl, rfl, ?_, rfl, ?_, ?_, ?_⟩
  · intro raw hn
    unfold normalizeChoices
    split
    · exact ⟨_, rfl⟩
    · cases raw with
      | arr items => exact absurd hn (by simp [typeOf])
      | sparse slots => exact absurd hn (by simp [typeOf])
      | obj entries => exact absurd hn (by simp [typeOf])
      | _ => exact ⟨_, rfl⟩
  · intro raw ha hm
    unfold normalizeChoices
    split
    · exact ⟨_, rfl⟩
    · cases raw with
      | arr items => exact absurd ha (by simp [isArray])
      | sparse slots => exact absurd ha (by simp [isArray])
      | obj entries => exact absurd hm (by simp [isMapping])
      | _ => exact ⟨_, rfl⟩
  · intro chalk opts h
    simp [createState, h]
  · intro chalk opts msg h
    simp [createState, h]

theorem normalizeChoices_failures_witness :
    ((str "abc").isArray = false ∧ (str "abc").isMapping = false ∧
      ∃ msg, normalizeChoices (str "abc") = Except.error msg) ∧
    (normalizeChoices (sampleOpts (arr []) none none).choices = Except.ok [] ∧
      createState plainChalk (sampleOpts (arr []) none none) =
        Except.error "choices must not be empty.") ∧
    (normalizeChoices (sampleOpts (num 7) none none).choices =
        Except.error "choices must be an array or an object map." ∧
      createState plainChalk (sampleOpts (num 7) none none) =
        Except.error "choices must be an array or an object map.") :=
  ⟨⟨rfl, rfl, normalizeChoices_failures.2.2.2.2.1 (str "abc") rfl rfl⟩,
    ⟨rfl, normalizeChoices_failures.2.2.2.2.2.1 plainChalk _ rfl⟩,
    ⟨rfl, normalizeChoices_failures.2.2.2.2.2.2 plainChalk _ _ rfl⟩⟩

theorem pushEntry_value (key : String) (item : JSVal) (idx : Nat) :
    (pushEntry key item idx).value =
      if isRecord item then
        (if (getProp item "value").isUndefined = false then getProp item "value"
          else getProp item "label")
      else item := by
  by_cases hrec : isRecord item = true
  · simp only [pushEntry, entryBase_record item hrec, hrec, if_true]
  · have hplain : isRecord item = false := by simpa using hrec
    have hv : getProp (obj [("value", item)]) "value" = item := rfl
    have hl : getProp (obj [("value", item)]) "label" = undefined := rfl
    simp only [pushEntry, entryBase_plain item hplain, hplain, hv, hl, ite_isUndefined_self]
    rfl

/-- C6, counterexample: a record entry with neither a `value` nor a `label` field
is normalized to a choice whose value is `undefined`, not the entry itself. -/
theorem normalizeChoices_bare_record_value :
    ∃ c, normalizeChoices (arr [obj [("description", str "d")]]) = Except.ok [c] ∧
      c.value = undefined ∧ c.value ≠ obj [("description", str "d")] := by
  refine ⟨_, rfl, rfl, ?_⟩
  intro h
  cases h

/-- C6 (amended): the value of the choice made from a raw entry is the entry
itself when the entry is a plain value; when the entry is a record it is the
record's `value` field if present, otherwise its `label` field (which is
`undefined` when the record has no `label` either). -/
theorem normalizeChoices_value (raw : JSVal) (choices : List Choice)
    (h : normalizeChoices raw = Except.ok choices) :
    ∃ items : List JSVal,
      (raw = arr items ∨ (∃ slots, raw = sparse slots ∧ items = slots.filterMap id) ∨
        ∃ entries, raw = obj entries ∧ items = entries.map Prod.snd) ∧
      choices.length = items.length ∧
      ∀ (i : Nat) (hi : i < items.length),
        ∃ c, choices[i]? = some c ∧
          c.value =
            if isRecord items[i] then
              (if (getProp items[i] "value").isUndefined = false then getProp items[i] "value"
                else getProp items[i] "label")
            else items[i] := by
  unfold normalizeChoices at h
  split at h
  · cases h
  · cases raw with
    | arr items =>
      cases h
      refine ⟨items, Or.inl rfl, pushArray_length items 0, ?_⟩
      intro i hi
      exact ⟨_, pushArray_getElem? items 0 i hi, pushEntry_value _ _ _⟩
    | sparse slots =>
      cases h
      refine ⟨slots.filterMap id, Or.inr (Or.inl ⟨slots, rfl, rfl⟩), pushSparse_length slots 0,
        ?_⟩
      intro i hi
      obtain ⟨idx, hget⟩ := pushSparse_getElem? slots 0 i hi
      exact ⟨_, hget, pushEntry_value _ _ _⟩
    | obj entries =>
      cases h
      refine ⟨entries.map Prod.snd, Or.inr (Or.inr ⟨entries, rfl, rfl⟩), ?_, ?_⟩
      · simp [pushEntries_length]
      · intro i hi
        have hi2 : i < entries.length := by simpa using hi
        refine ⟨_, pushEntries_getElem? entries 0 i hi2, ?_⟩
        rw [pushEntry_value]
        simp
    | _ => cases h

theorem normalizeChoices_value_witness :
    normalizeChoices (arr mixedItems) = Except.ok (pushArray 0 mixedItems) ∧
    (pushArray 0 mixedItems).map Choice.value = [str "a", str "L", num 5, undefined] ∧
    ∃ items : List JSVal,
      (arr mixedItems = arr items ∨
        (∃ slots, arr mixedItems = sparse slots ∧ items = slots.filterMap id) ∨
        ∃ entries, arr mixedItems = obj entries ∧ items = entries.map Prod.snd) ∧
      (pushArray 0 mixedItems).length = items.length ∧
      ∀ (i : Nat) (hi : i < items.length),
        ∃ c, (pushArray 0 mixedItems)[i]? = some c ∧
          c.value =
            if isRecord items[i] then
              (if (getProp items[i] "value").isUndefined = false then getProp items[i] "value"
                else getProp items[i] "label")
            else items[i] :=
  ⟨rfl, rfl, normalizeChoices_value _ _ rfl⟩

/-! ## Keystroke handler: theorems -/

theorem char_toLower_y (c : Char) : c.toLower = 'y' ↔ c = 'y' ∨ c = 'Y' := by
  constructor
  · intro h
    unfold Char.toLower at h
    simp only at h
    split at h
    · next hr =>
      right
      have hc : c = Char.ofNat c.toNat := (Char.ofNat_toNat c).symm
      obtain ⟨h1, h2⟩ := hr
      generalize c.toNat = n at *
      subst hc
      interval_cases n <;> first | rfl | (exfalso; revert h; decide)
    · left; exact h
  · rintro (rfl | rfl) <;> decide

theorem char_toLower_n (c : Char) : c.toLower = 'n' ↔ c = 'n' ∨ c = 'N' := by
  constructor
  · intro h
    unfold Char.toLower at h
    simp only at h
    split at h
    · next hr =>
      right
      have hc : c = Char.ofNat c.toNat := (Char.ofNat_toNat c).symm
      obtain ⟨h1, h2⟩ := hr
      generalize c.toNat = n at *
      subst hc
      interval_cases n <;> first | rfl | (exfalso; revert h; decide)
    · left; exact h
  · rintro (rfl | rfl) <;> decide

theorem toLowerCase_single (k : String) (l : Char) :
    toLowerCase k = String.mk [l] ↔ ∃ ch, k = String.mk [ch] ∧ ch.toLower = l := by
  constructor
  · intro h
    have hd : k.data.map Char.toLower = [l] := congrArg String.data h
    obtain ⟨data⟩ := k
    cases data with
    | nil => simp at hd
    | cons ch rest =>
      simp only [List.map_cons, List.cons.injEq, List.map_eq_nil_iff] at hd
      obtain ⟨h1, rfl⟩ := hd
      exact ⟨ch, rfl, h1⟩
  · rintro ⟨ch, rfl, rfl⟩
    rfl

theorem toLowerCase_eq_y (k : String) : toLowerCase k = "y" ↔ k = "y" ∨ k = "Y" := by
  rw [show ("y" : String) = String.mk ['y'] from rfl, toLowerCase_single]
  constructor
  · rintro ⟨ch, rfl, h⟩
    rcases (char_toLower_y ch).mp h with rfl | rfl
    · left; rfl
    · right; rfl
  · rintro (rfl | rfl)
    · exact ⟨'y', rfl, by decide⟩
    · exact ⟨'Y', rfl, by decide⟩

theorem toLowerCase_eq_n (k : String) : toLowerCase k = "n" ↔ k = "n" ∨ k = "N" := by
  rw [show ("n" : String) = String.mk ['n'] from rfl, toLowerCase_single]
  constructor
  · rintro ⟨ch, rfl, h⟩
    rcases (char_toLower_n ch).mp h with rfl | rfl
    · left; rfl
    · right; rfl
  · rintro (rfl | rfl)
    · exact ⟨'n', rfl, by decide⟩
    · exact ⟨'N', rfl, by decide⟩

theorem choiceAt_natCast (choices : List Choice) (i : Nat) :
    choiceAt choices (i : Int) = choices[i]? := by
  simp [choiceAt]

theorem resolveEffect_of_choiceAt (s : State) (c : Choice)
    (h : choiceAt s.choices s.selectedIndex = some c) :
    resolveEffect s =
      Effect.resolve
        { index := s.selectedIndex, value := c.value, key := c.key, label := c.label } := by
  simp [resolveEffect, finalizeSingle, h]

/-- C7: with `confirm` disabled, in Browsing, a keystroke other than the
interrupt byte and the Up/Down sequences that equals some choice's key
case-insensitively (the two have the same `toLowerCase`) resolves the prompt at
once with the data of the first choice, in order, whose key matches;
`confirming` stays false.  This holds whatever the case mapping of the builtin
is. -/
theorem hotkey_resolves_without_confirm (lower : String → String) (s : State) (str : String)
    (hconfirm : s.confirm = false) (hbrowsing : s.confirming = false)
    (hint : str ≠ "\u0003") (hup : str ≠ "\u001b[A") (hdown : str ≠ "\u001b[B")
    (hmatch : ∃ c ∈ s.choices, lower c.key = lower str) :
    ∃ (i : Nat) (c : Choice), s.choices[i]? = some c ∧
      lower c.key = lower str ∧
      (∀ (j : Nat) (c2 : Choice), j < i → s.choices[j]? = some c2 →
        lower c2.key ≠ lower str) ∧
      onDataWith lower s str =
        ({ s with selectedIndex := (i : Int) },
          [Effect.cleanup, Effect.render,
            Effect.resolve
              { index := (i : Int), value := c.value, key := c.key, label := c.label }]) ∧
      (onDataWith lower s str).1.confirming = false := by
  rcases findIndex_spec (fun choice => lower choice.key == lower str) s.choices with
    ⟨-, hnone⟩ | ⟨i, hi, hlt, hp, hfirst⟩
  · obtain ⟨c, hc, hk⟩ := hmatch
    have := hnone c hc
    simp [hk] at this
  · have hget : s.choices[i]? = some s.choices[i] := List.getElem?_eq_getElem hlt
    have hres : resolveEffect { s with selectedIndex := (i : Int) } =
        Effect.resolve
          { index := (i : Int), value := s.choices[i].value, key := s.choices[i].key,
            label := s.choices[i].label } :=
      resolveEffect_of_choiceAt { s with selectedIndex := (i : Int) } s.choices[i]
        (by rw [choiceAt_natCast]; exact hget)
    have hne : (i : Int) ≠ -1 := by omega
    have hstep : onDataWith lower s str =
        ({ s with selectedIndex := (i : Int) },
          [Effect.cleanup, Effect.render,
            Effect.resolve
              { index := (i : Int), value := s.choices[i].value, key := s.choices[i].key,
                label := s.choices[i].label }]) := by
      have hres2 := hres
      simp only [hconfirm, hbrowsing] at hres2
      unfold onDataWith
      simp only [hint, hup, hdown, hbrowsing, hconfirm, hi, hne, if_false, if_true,
        ne_eq, not_false_eq_true, Bool.false_eq_true]
      rw [hres2]
    refine ⟨i, s.choices[i], hget, by simpa using hp, ?_, hstep, ?_⟩
    · intro j c2 hj hc2
      have hjlt : j < s.choices.length := by omega
      have h2 := hfirst j hj
      rw [List.getElem?_eq_getElem hjlt] at hc2
      cases hc2
      simpa using h2
    · rw [hstep]
      exact hbrowsing

theorem hotkey_resolves_without_confirm_witness :
    onDataWith latin1Lower (sampleState accentChoices 2 false false) "é" =
        (sampleState accentChoices 0 false false,
          [Effect.cleanup, Effect.render,
            Effect.resolve { index := 0, value := str "summer", key := "É", label := "Été" }]) ∧
      onData (sampleState abcChoices 0 false false) "B" =
        (sampleState abcChoices 1 false false,
          [Effect.cleanup, Effect.render,
            Effect.resolve { index := 1, value := num 2, key := "b", label := "Banana" }]) ∧
      ∃ (i : Nat) (c : Choice), (sampleState accentChoices 2 false false).choices[i]? = some c ∧
        latin1Lower c.key = latin1Lower "é" ∧
        (∀ (j : Nat) (c2 : Choice), j < i →
          (sampleState accentChoices 2 false false).choices[j]? = some c2 →
          latin1Lower c2.key ≠ latin1Lower "é") ∧
        onDataWith latin1Lower (sampleState accentChoices 2 false false) "é" =
          ({ sampleState accentChoices 2 false false with selectedIndex := (i : Int) },
            [Effect.cleanup, Effect.render,
              Effect.resolve
                { index := (i : Int), value := c.value, key := c.key, label := c.label }]) ∧
        (onDataWith latin1Lower (sampleState accentChoices 2 false false) "é").1.confirming =
          false :=
  ⟨rfl, rfl,
    hotkey_resolves_without_confirm latin1Lower (sampleState accentChoices 2 false false) "é"
      rfl rfl (by decide) (by decide) (by decide)
      ⟨{ key := "é", label := "école", value := str "school", description := "" },
        List.Mem.tail _ (List.Mem.head _), rfl⟩⟩

theorem findIndex_eq_neg_one (pred : Choice → Bool) (choices : List Choice)
    (h : ∀ c ∈ choices, pred c = false) : findIndex pred choices = -1 := by
  unfold findIndex
  rw [List.findIdx?_eq_none_iff.mpr h]

theorem onData_confirming_back (s : State) (back : String) (hconf : s.confirming = true)
    (hback : back = "n" ∨ back = "N") :
    onData s back = ({ s with confirming := false }, [Effect.render]) := by
  have h1 : back ≠ "\u0003" := by rcases hback with rfl | rfl <;> decide
  have h2 : back ≠ "\r" := by rcases hback with rfl | rfl <;> decide
  have h3 : back ≠ "\n" := by rcases hback with rfl | rfl <;> decide
  have h4 : toLowerCase back ≠ "y" := by rcases hback with rfl | rfl <;> decide
  have h5 : toLowerCase back = "n" := (toLowerCase_eq_n back).mpr hback
  unfold onData onDataWith
  rw [if_neg h1, if_pos hconf, if_neg (by simp [h2, h3, h4]), if_pos h5]

/-- C8, counterexample: a mapping may use the Enter byte as a key.  In the state
built from it Enter is taken as that choice's hotkey, so it moves the selection
from 0 to 1 on the way to Confirming, and `n` does not bring the state back. -/
theorem enter_hotkey_moves_selection :
    ∃ s, createState plainChalk
          (sampleOpts (obj [("a", str "Apple"), ("\r", str "Return")]) none none) =
        Except.ok s ∧
      s.confirm = true ∧ s.confirming = false ∧ s.selectedIndex = 0 ∧
      (onData s "\r").1.confirming = true ∧ (onData s "\r").1.selectedIndex = 1 ∧
      (onData (onData s "\r").1 "n").1.confirming = false ∧
      (onData (onData s "\r").1 "n").1 ≠ s := by
  refine ⟨_, rfl, rfl, rfl, rfl, rfl, rfl, rfl, ?_⟩
  intro h
  have h2 := congrArg State.selectedIndex h
  revert h2
  decide

/-- C8 (amended): with `confirm` enabled, in a Browsing state in which no
choice's key equals the Enter keystroke case-insensitively, Enter moves to
Confirming and changes nothing but `confirming`, and a following `n` or `N`
returns to exactly the state before Enter; neither keystroke resolves. -/
theorem enter_then_n_identity (s : State) (enter back : String)
    (henter : enter = "\r" ∨ enter = "\n") (hback : back = "n" ∨ back = "N")
    (hconfirm : s.confirm = true) (hbrowsing : s.confirming = false)
    (hnokey : ∀ c ∈ s.choices, toLowerCase c.key ≠ toLowerCase enter) :
    onData s enter = ({ s with confirming := true }, [Effect.render]) ∧
      (onData s enter).1.selectedIndex = s.selectedIndex ∧
      onData (onData s enter).1 back = (s, [Effect.render]) := by
  have hmiss : findIndex (fun choice => toLowerCase choice.key == toLowerCase enter) s.choices =
      -1 :=
    findIndex_eq_neg_one _ _ (fun c hc => by simpa using hnokey c hc)
  have hstep : onData s enter = ({ s with confirming := true }, [Effect.render]) := by
    have h1 : enter ≠ "\u0003" := by rcases henter with rfl | rfl <;> decide
    have h2 : enter ≠ "\u001b[A" := by rcases henter with rfl | rfl <;> decide
    have h3 : enter ≠ "\u001b[B" := by rcases henter with rfl | rfl <;> decide
    unfold onData onDataWith
    simp only [h1, h2, h3, hbrowsing, hconfirm, hmiss, henter, if_false, if_true, ne_eq,
      not_true_eq_false, Bool.false_eq_true]
  refine ⟨hstep, by rw [hstep], ?_⟩
  rw [hstep, onData_confirming_back _ back rfl hback]
  obtain ⟨q, choices, idx, bs, confirm, dp, dd, sfh, bw, hf, confirming, ht, mode⟩ := s
  simp only at hbrowsing
  subst hbrowsing
  rfl

theorem enter_then_n_identity_witness :
    onData (sampleState abcChoices 1 true false) "\r" =
        (sampleState abcChoices 1 true true, [Effect.render]) ∧
      (onData (sampleState abcChoices 1 true false) "\r").1.selectedIndex =
        (sampleState abcChoices 1 true false).selectedIndex ∧
      onData (onData (sampleState abcChoices 1 true false) "\r").1 "N" =
        (sampleState abcChoices 1 true false, [Effect.render]) :=
  enter_then_n_identity (sampleState abcChoices 1 true false) "\r" "N" (Or.inl rfl)
    (Or.inr rfl) rfl rfl (by decide)

theorem onData_confirming_ignored (s : State) (k : String) (hconf : s.confirming = true)
    (hk : k ≠ "\u0003" ∧ k ≠ "\r" ∧ k ≠ "\n" ∧ k ≠ "y" ∧ k ≠ "Y" ∧ k ≠ "n" ∧ k ≠ "N") :
    onData s k = (s, []) := by
  obtain ⟨h1, h2, h3, h4, h5, h6, h7⟩ := hk
  have hy : toLowerCase k ≠ "y" := fun h => by
    rcases (toLowerCase_eq_y k).mp h with h | h
    · exact h4 h
    · exact h5 h
  have hn : toLowerCase k ≠ "n" := fun h => by
    rcases (toLowerCase_eq_n k).mp h with h | h
    · exact h6 h
    · exact h7 h
  unfold onData onDataWith
  simp only [h1, h2, h3, hy, hn, hconf, if_false, if_true, or_self]

theorem onData_confirming_accept (s : State) (c : Choice) (final : String)
    (hconf : s.confirming = true) (hsel : choiceAt s.choices s.selectedIndex = some c)
    (hfinal : final = "\r" ∨ final = "\n" ∨ final = "y" ∨ final = "Y") :
    onData s final =
      (s, [Effect.cleanup, Effect.render,
        Effect.resolve
          { index := s.selectedIndex, value := c.value, key := c.key, label := c.label }]) := by
  have h1 : final ≠ "\u0003" := by rcases hfinal with rfl | rfl | rfl | rfl <;> decide
  have h2 : final = "\r" ∨ final = "\n" ∨ toLowerCase final = "y" := by
    rcases hfinal with rfl | rfl | rfl | rfl <;> decide
  unfold onData onDataWith
  simp only [h1, h2, hconf, if_false, if_true, resolveEffect_of_choiceAt s c hsel]

theorem runKeys_cons_ignored (s : State) (k : String) (rest : List String)
    (h : onData s k = (s, [])) : runKeys s (k :: rest) = runKeys s rest := by
  simp [runKeys, h, detached]

/-- C9: in Confirming with choice `c` selected, any sequence of keystrokes none
of which is the interrupt byte, Enter, `y`/`Y` or `n`/`N` leaves the state
unchanged with no effect at all, and a following Enter, `y` or `Y` resolves with
the index, value, key and label of `c`. -/
theorem confirming_keeps_choice (s : State) (c : Choice) (keys : List String) (final : String)
    (hconf : s.confirming = true) (hsel : choiceAt s.choices s.selectedIndex = some c)
    (hkeys : ∀ k ∈ keys,
      k ≠ "\u0003" ∧ k ≠ "\r" ∧ k ≠ "\n" ∧ k ≠ "y" ∧ k ≠ "Y" ∧ k ≠ "n" ∧ k ≠ "N")
    (hfinal : final = "\r" ∨ final = "\n" ∨ final = "y" ∨ final = "Y") :
    runKeys s keys = (s, []) ∧
      runKeys s (keys ++ [final]) =
        (s, [Effect.cleanup, Effect.render,
          Effect.resolve
            { index := s.selectedIndex, value := c.value, key := c.key, label := c.label }]) := by
  induction keys with
  | nil =>
    refine ⟨rfl, ?_⟩
    simp only [List.nil_append, runKeys, onData_confirming_accept s c final hconf hsel hfinal]
    rfl
  | cons k rest ih =>
    have hk := onData_confirming_ignored s k hconf (hkeys k (List.mem_cons_self k rest))
    obtain ⟨ih1, ih2⟩ := ih (fun k2 hk2 => hkeys k2 (List.mem_cons_of_mem k hk2))
    constructor
    · rw [runKeys_cons_ignored s k rest hk]
      exact ih1
    · rw [List.cons_append, runKeys_cons_ignored s k (rest ++ [final]) hk]
      exact ih2

theorem confirming_keeps_choice_witness :
    runKeys (sampleState abcChoices 1 true true) ["\u001b[A", "c", "x", "\u001b[B"] =
        (sampleState abcChoices 1 true true, []) ∧
      runKeys (sampleState abcChoices 1 true true) (["\u001b[A", "c", "x", "\u001b[B"] ++ ["Y"]) =
        (sampleState abcChoices 1 true true,
          [Effect.cleanup, Effect.render,
            Effect.resolve { index := 1, value := num 2, key := "b", label := "Banana" }]) :=
  confirming_keeps_choice (sampleState abcChoices 1 true true)
    { key := "b", label := "Banana", value := num 2, description := "" }
    ["\u001b[A", "c", "x", "\u001b[B"] "Y" rfl rfl (by decide) (Or.inr (Or.inr (Or.inr rfl)))

/-- C10: in Browsing with at least one choice and the index in range, Up sets
`selectedIndex` to `n - 1` when it was 0 and to `selectedIndex - 1` otherwise,
Down sets it to 0 when it was `n - 1` and to `selectedIndex + 1` otherwise; both
only re-render, change no other field and leave `confirming` false. -/
theorem arrows_wrap (s : State) (hn : 1 ≤ s.choices.length) (hbrowsing : s.confirming = false)
    (hvalid : 0 ≤ s.selectedIndex ∧ s.selectedIndex < s.choices.length) :
    onData s "\u001b[A" =
        ({ s with selectedIndex :=
            if s.selectedIndex = 0 then (s.choices.length : Int) - 1 else s.selectedIndex - 1 },
          [Effect.render]) ∧
      onData s "\u001b[B" =
        ({ s with selectedIndex :=
            if s.selectedIndex = (s.choices.length : Int) - 1 then 0 else s.selectedIndex + 1 },
          [Effect.render]) ∧
      (onData s "\u001b[A").1.confirming = false ∧ (onData s "\u001b[B").1.confirming = false := by
  have hpos : (0 : Int) < s.choices.length := by omega
  have hupIdx : clampIndex (s.selectedIndex - 1) s.choices.length =
      if s.selectedIndex = 0 then (s.choices.length : Int) - 1 else s.selectedIndex - 1 := by
    split
    · next h0 => exact clampIndex_eq_of _ _ _ 1 hpos (by omega) (by omega) (by rw [h0]; ring)
    · next h0 => exact clampIndex_eq_of _ _ _ 0 hpos (by omega) (by omega) (by ring)
  have hdownIdx : clampIndex (s.selectedIndex + 1) s.choices.length =
      if s.selectedIndex = (s.choices.length : Int) - 1 then 0 else s.selectedIndex + 1 := by
    split
    · next h0 => exact clampIndex_eq_of _ _ _ (-1) hpos (by omega) (by omega) (by rw [h0]; ring)
    · next h0 => exact clampIndex_eq_of _ _ _ 0 hpos (by omega) (by omega) (by ring)
  have hup : onData s "\u001b[A" =
      ({ s with selectedIndex :=
          if s.selectedIndex = 0 then (s.choices.length : Int) - 1 else s.selectedIndex - 1 },
        [Effect.render]) := by
    have e1 : ("\u001b[A" : String) ≠ "\u0003" := by decide
    unfold onData onDataWith
    simp only [e1, hbrowsing, hupIdx, if_false, if_true, Bool.false_eq_true]
  have hdown : onData s "\u001b[B" =
      ({ s with selectedIndex :=
          if s.selectedIndex = (s.choices.length : Int) - 1 then 0 else s.selectedIndex + 1 },
        [Effect.render]) := by
    have e1 : ("\u001b[B" : String) ≠ "\u0003" := by decide
    have e2 : ("\u001b[B" : String) ≠ "\u001b[A" := by decide
    unfold onData onDataWith
    simp only [e1, e2, hbrowsing, hdownIdx, if_false, if_true, Bool.false_eq_true]
  refine ⟨hup, hdown, ?_, ?_⟩
  · rw [hup]; exact hbrowsing
  · rw [hdown]; exact hbrowsing

theorem arrows_wrap_witness :
    onData (sampleState abcChoices 0 true false) "\u001b[A" =
        (sampleState abcChoices 2 true false, [Effect.render]) ∧
      onData (sampleState abcChoices 0 true false) "\u001b[B" =
        (sampleState abcChoices 1 true false, [Effect.render]) ∧
      (onData (sampleState abcChoices 0 true false) "\u001b[A").1.confirming = false ∧
      (onData (sampleState abcChoices 0 true false) "\u001b[B").1.confirming = false :=
  arrows_wrap (sampleState abcChoices 0 true false) (by decide) rfl (by decide)

/-! ## Confirmation disabled -/

theorem reachable_index_in_range (chalk : Chalk) (opts : Opts) (s : State)
    (h : Reachable chalk opts s) :
    0 ≤ s.selectedIndex ∧ s.selectedIndex < s.choices.length := by
  induction h with
  | init s0 h0 => exact createState_index_valid chalk opts s0 h0
  | step s1 str _ ih => exact onData_index_valid s1 str ih

theorem onData_confirm (s : State) (str : String) : (onData s str).1.confirm = s.confirm := by
  unfold onData onDataWith
  simp only []
  split_ifs <;> rfl

theorem onData_stays_unconfirming (s : State) (str : String) (hconfirm : s.confirm = false)
    (hbrowsing : s.confirming = false) : (onData s str).1.confirming = false := by
  unfold onData onDataWith
  simp only [hconfirm, hbrowsing]
  split_ifs <;> first | rfl | exact hbrowsing

theorem createState_confirm_disabled (chalk : Chalk) (opts : Opts) (s : State)
    (hopt : opts.confirm = some false) (h : createState chalk opts = Except.ok s) :
    s.confirm = false ∧ s.confirming = false := by
  unfold createState at h
  split at h
  · cases h
  · split at h
    · cases h
    · cases h
      simp [hopt]

theorem onData_hotkey_direct (s : State) (str : String) (i : Nat)
    (hconfirm : s.confirm = false) (hbrowsing : s.confirming = false)
    (hint : str ≠ "\u0003") (hup : str ≠ "\u001b[A") (hdown : str ≠ "\u001b[B")
    (hi : findIndex (fun choice => toLowerCase choice.key == toLowerCase str) s.choices =
      (i : Int))
    (hlt : i < s.choices.length) :
    onData s str =
      ({ s with selectedIndex := (i : Int) },
        [Effect.cleanup, Effect.render,
          Effect.resolve
            { index := (i : Int), value := s.choices[i].value, key := s.choices[i].key,
              label := s.choices[i].label }]) := by
  have hres := resolveEffect_of_choiceAt { s with selectedIndex := (i : Int) } s.choices[i]
    (by rw [choiceAt_natCast]; exact List.getElem?_eq_getElem hlt)
  have hne : (i : Int) ≠ -1 := by omega
  simp only [hconfirm, hbrowsing] at hres
  unfold onData onDataWith
  simp only [hint, hup, hdown, hbrowsing, hconfirm, hi, hne, if_false, if_true,
    ne_eq, not_false_eq_true, Bool.false_eq_true]
  rw [hres]

theorem onData_enter_direct (s : State) (enter : String)
    (henter : enter = "\r" ∨ enter = "\n")
    (hconfirm : s.confirm = false) (hbrowsing : s.confirming = false)
    (hmiss : findIndex (fun choice => toLowerCase choice.key == toLowerCase enter) s.choices =
      -1) :
    onData s enter = (s, [Effect.cleanup, Effect.render, resolveEffect s]) := by
  have h1 : enter ≠ "\u0003" := by rcases henter with rfl | rfl <;> decide
  have h2 : enter ≠ "\u001b[A" := by rcases henter with rfl | rfl <;> decide
  have h3 : enter ≠ "\u001b[B" := by rcases henter with rfl | rfl <;> decide
  unfold onData onDataWith
  simp only [h1, h2, h3, hbrowsing, hconfirm, hmiss, henter, if_false, if_true, ne_eq,
    not_true_eq_false, Bool.false_eq_true]

/-- C11: when the prompt is built with `confirm: false`, every reachable state
has `confirm` and `confirming` false, so Confirming is never entered; Enter
resolves at once, and so does every keystroke that is a choice's hotkey. -/
theorem confirm_disabled_never_confirming (chalk : Chalk) (opts : Opts) (s : State)
    (hopt : opts.confirm = some false) (h : Reachable chalk opts s) :
    s.confirm = false ∧ s.confirming = false ∧
      (∀ enter : String, enter = "\r" ∨ enter = "\n" →
        ∃ r, (onData s enter).2 = [Effect.cleanup, Effect.render, Effect.resolve r] ∧
          (onData s enter).1.confirming = false) ∧
      (∀ str : String, str ≠ "\u0003" → str ≠ "\u001b[A" → str ≠ "\u001b[B" →
        (∃ c ∈ s.choices, toLowerCase c.key = toLowerCase str) →
        ∃ r, (onData s str).2 = [Effect.cleanup, Effect.render, Effect.resolve r] ∧
          (onData s str).1.confirming = false) := by
  have hinv : s.confirm = false ∧ s.confirming = false := by
    induction h with
    | init s0 h0 => exact createState_confirm_disabled chalk opts s0 hopt h0
    | step s1 str _ ih =>
      exact ⟨by rw [onData_confirm]; exact ih.1, onData_stays_unconfirming s1 str ih.1 ih.2⟩
  obtain ⟨hconfirm, hbrowsing⟩ := hinv
  have hrange := reachable_index_in_range chalk opts s h
  refine ⟨hconfirm, hbrowsing, ?_, ?_⟩
  · intro enter henter
    have h1 : enter ≠ "\u0003" := by rcases henter with rfl | rfl <;> decide
    have h2 : enter ≠ "\u001b[A" := by rcases henter with rfl | rfl <;> decide
    have h3 : enter ≠ "\u001b[B" := by rcases henter with rfl | rfl <;> decide
    suffices hex : ∃ r, (onData s enter).2 =
        [Effect.cleanup, Effect.render, Effect.resolve r] by
      obtain ⟨r, hr⟩ := hex
      exact ⟨r, hr, onData_stays_unconfirming s enter hconfirm hbrowsing⟩
    rcases findIndex_spec (fun choice => toLowerCase choice.key == toLowerCase enter)
        s.choices with ⟨hmiss, -⟩ | ⟨i, hi, hlt, -, -⟩
    · obtain ⟨c, hc, hfin⟩ := finalizeSingle_of_valid s hrange
      rw [onData_enter_direct s enter henter hconfirm hbrowsing hmiss]
      exact ⟨_, by rw [resolveEffect_of_choiceAt s c hc]⟩
    · rw [onData_hotkey_direct s enter i hconfirm hbrowsing h1 h2 h3 hi hlt]
      exact ⟨_, rfl⟩
  · intro str h1 h2 h3 hmatch
    suffices hex : ∃ r, (onData s str).2 =
        [Effect.cleanup, Effect.render, Effect.resolve r] by
      obtain ⟨r, hr⟩ := hex
      exact ⟨r, hr, onData_stays_unconfirming s str hconfirm hbrowsing⟩
    rcases findIndex_spec (fun choice => toLowerCase choice.key == toLowerCase str)
        s.choices with ⟨-, hnone⟩ | ⟨i, hi, hlt, -, -⟩
    · obtain ⟨c, hc, hk⟩ := hmatch
      have := hnone c hc
      simp [hk] at this
    · rw [onData_hotkey_direct s str i hconfirm hbrowsing h1 h2 h3 hi hlt]
      exact ⟨_, rfl⟩

theorem confirm_disabled_never_confirming_witness :
    (onData (sampleState (pushArray 0 [str "a", str "b"]) 0 false false) "\u001b[B").1.confirm =
        false ∧
      (onData (sampleState (pushArray 0 [str "a", str "b"]) 0 false false)
        "\u001b[B").1.confirming = false ∧
      onData (onData (sampleState (pushArray 0 [str "a", str "b"]) 0 false false)
          "\u001b[B").1 "\r" =
        (sampleState (pushArray 0 [str "a", str "b"]) 1 false false,
          [Effect.cleanup, Effect.render,
            Effect.resolve { index := 1, value := str "b", key := "2", label := "b" }]) :=
  have hr : Reachable plainChalk (sampleOpts (arr [str "a", str "b"]) none (some false))
      (onData (sampleState (pushArray 0 [str "a", str "b"]) 0 false false) "\u001b[B").1 :=
    Reachable.step _ _ (Reachable.init _ rfl)
  have hc := confirm_disabled_never_confirming _ _ _ rfl hr
  ⟨hc.1, hc.2.1, rfl⟩

/-! ## Text input prompt: theorems -/

theorem advanceStringIndex_gt (input : List Nat) (index : Nat) (unicode : Bool) :
    index < advanceStringIndex input index unicode := by
  unfold advanceStringIndex
  split
  · omega
  · split
    · omega
    · split
      · split <;> omega
      · omega

/-- The search never runs out of fuel: once the fuel exceeds the positions that
are left, more fuel gives the same answer. -/
theorem regExpSearch_fuel_enough (re : RegExp) (input : List Nat) :
    ∀ (fuel pos : Nat), input.length + 1 < fuel + pos →
      regExpSearch re input (fuel + 1) pos = regExpSearch re input fuel pos := by
  intro fuel
  induction fuel with
  | zero =>
    intro pos h
    have hpos : pos > input.length := by omega
    simp [regExpSearch, hpos]
  | succ fuel ih =>
    intro pos h
    have hadv := advanceStringIndex_gt input pos re.unicode
    have hnext := ih (advanceStringIndex input pos re.unicode) (by omega)
    rw [regExpSearch, hnext]
    exact (regExpSearch.eq_2 re input pos fuel).symm

/-- The fuel that `regExpTest` passes is enough from every start position. -/
theorem regExpTest_fuel_enough (re : RegExp) (input : List Nat) (start extra : Nat) :
    regExpSearch re input (input.length + 2 + extra) start =
      regExpSearch re input (input.length + 2) start := by
  induction extra with
  | zero => rfl
  | succ extra ih =>
    rw [← ih]
    exact regExpSearch_fuel_enough re input (input.length + 2 + extra) start (by omega)

theorem isInputValid_input (s : InputState) : (isInputValid s).2.input = s.input := by
  unfold isInputValid
  split <;> rfl

theorem isInputValid_fields (s : InputState) :
    (isInputValid s).2 = { s with lastIndex := (isInputValid s).2.lastIndex } := by
  unfold isInputValid
  split <;> rfl

theorem renderInput_fields (chalk : Chalk) (s : InputState) :
    (renderInput chalk s).1 = { s with lastIndex := (renderInput chalk s).1.lastIndex } := by
  show (isInputValid s).2 = { s with lastIndex := (isInputValid s).2.lastIndex }
  exact isInputValid_fields s

theorem isInputValid_stateless (s : InputState) (re : RegExp)
    (hre : s.validationRegex = some re) (hflags : re.global = true ∨ re.sticky = false) :
    (isInputValid s).1 = (regExpTest re 0 s.input).1 := by
  unfold isInputValid
  rw [hre]
  simp only []
  rcases hflags with hg | hs
  · simp only [hg, if_true]
  · cases hg : re.global
    · simp only [regExpTest, hg, hs, Bool.or_self, Bool.false_eq_true, if_false]
      split <;> rfl
    · simp only [if_true]

/-- Enter in the text input prompt, for a pattern whose test does not depend on
the match position (no pattern, or a pattern that is global or not sticky):
it resolves with the unmodified input exactly when the input matches. -/
theorem enter_resolves_iff_matches (chalk : Chalk) (s : InputState) (enter : String)
    (henter : enter = "\r" ∨ enter = "\n")
    (hflags : ∀ re, s.validationRegex = some re → re.global = true ∨ re.sticky = false) :
    ((s.validationRegex = none ∨
        ∃ re, s.validationRegex = some re ∧ (regExpTest re 0 s.input).1 = true) →
      ∃ lines, (runInput.onData chalk s enter).2 =
        [InputEffect.cleanup, InputEffect.render lines, InputEffect.resolve s.input]) ∧
    (¬ (s.validationRegex = none ∨
        ∃ re, s.validationRegex = some re ∧ (regExpTest re 0 s.input).1 = true) →
      ∃ lines, (runInput.onData chalk s enter).2 = [InputEffect.render lines]) ∧
    (runInput.onData chalk s enter).1.input = s.input := by
  have h1 : enter ≠ "\u0003" := by rcases henter with rfl | rfl <;> decide
  have hvalid : (isInputValid s).1 = true ↔
      (s.validationRegex = none ∨
        ∃ re, s.validationRegex = some re ∧ (regExpTest re 0 s.input).1 = true) := by
    cases hre : s.validationRegex with
    | none => simp [isInputValid, hre]
    | some re =>
      rw [isInputValid_stateless s re hre (hflags re hre)]
      simp
  have hstep : runInput.onData chalk s enter =
      if (isInputValid s).1 = false then
        ((renderInput chalk (isInputValid s).2).1,
          [InputEffect.render (renderInput chalk (isInputValid s).2).2])
      else
        ((renderInput chalk (isInputValid s).2).1,
          [InputEffect.cleanup, InputEffect.render (renderInput chalk (isInputValid s).2).2,
            InputEffect.resolve (isInputValid s).2.input]) := by
    unfold runInput.onData
    simp only [h1, henter, if_false, if_true]
  refine ⟨?_, ?_, ?_⟩
  · intro hm
    have hv := hvalid.mpr hm
    rw [hstep]
    simp only [hv, Bool.true_eq_false, if_false, isInputValid_input]
    exact ⟨_, rfl⟩
  · intro hm
    have hv : (isInputValid s).1 = false := by
      cases hb : (isInputValid s).1
      · rfl
      · exact absurd (hvalid.mp hb) hm
    rw [hstep]
    simp only [hv, if_true]
    exact ⟨_, rfl⟩
  · rw [hstep]
    split <;>
      · show (isInputValid (isInputValid s).2).2.input = s.input
        rw [isInputValid_input, isInputValid_input]

theorem enter_resolves_iff_matches_witness :
    (runInput.runKeys plainChalk (sampleInputState (some digitsRegExp) 0 "12a") ["\r"]).2 =
        [InputEffect.render
          ["", "", "> 12a▌", "", "Input does not match required format.",
            "Type your answer and press Enter."]] ∧
      (runInput.runKeys plainChalk (sampleInputState (some digitsRegExp) 0 "12a")
          ["\u007f", "\r"]).2.getLast? = some (InputEffect.resolve "12") ∧
      (runInput.onData plainChalk (sampleInputState none 0 "") "\r").2 =
        [InputEffect.cleanup,
          InputEffect.render ["", "", "> ▌", "", "Type your answer and press Enter."],
          InputEffect.resolve ""] ∧
      (runInput.onData plainChalk (sampleInputState (some digitsRegExp) 0 "12") "\n").1.input =
        "12" :=
  ⟨rfl, rfl, rfl,
    (enter_resolves_iff_matches plainChalk (sampleInputState (some digitsRegExp) 0 "12") "\n"
      (Or.inr rfl) (fun re hre => by cases hre; exact Or.inr rfl)).2.2⟩

/-- C12, failing input: with the sticky pattern `/a/y`, typing `a` and pressing
Enter does not resolve although `a` matches the pattern, because the render
after `a` left the match position at 1 and `isInputValid` does not reset it. -/
theorem sticky_enter_does_not_resolve :
    (regExpTest stickyA 0 "a").1 = true ∧
      (runInput.runKeys plainChalk (sampleInputState (some stickyA) 0 "") ["a"]).1 =
        sampleInputState (some stickyA) 1 "a" ∧
      runInput.onData plainChalk (sampleInputState (some stickyA) 1 "a") "\r" =
        (sampleInputState (some stickyA) 1 "a",
          [InputEffect.render ["", "", "> a▌", "", "Type your answer and press Enter."]]) :=
  ⟨rfl, rfl, rfl⟩

theorem renderInput_input (chalk : Chalk) (s : InputState) :
    (renderInput chalk s).1.input = s.input :=
  isInputValid_input s

theorem onData_backspace (chalk : Chalk) (s : InputState) (k : String)
    (hk : k = "\u0008" ∨ k = "\u007f") :
    runInput.onData chalk s k =
      ((renderInput chalk { s with input := s.input.sliceLast }).1,
        [InputEffect.render (renderInput chalk { s with input := s.input.sliceLast }).2]) := by
  have h1 : k ≠ "\u0003" := by rcases hk with rfl | rfl <;> decide
  have h2 : ¬ (k = "\r" ∨ k = "\n") := by rcases hk with rfl | rfl <;> decide
  unfold runInput.onData
  simp only [h1, h2, hk, if_false, if_true]

/-- C13: a backspace (0x08) or delete (0x7f) keystroke replaces `input` by
`input` without its last character when it is non-empty and leaves it empty
when it is empty.  A character is what `slice` counts, a UTF-16 code unit, so of
a character beyond the Basic Multilingual Plane the second half goes.  The only
effect is a re-render, so the prompt does not resolve, and every other field of
`state` keeps its value (the match position inside the pattern object, which the
re-render may move, is not one of them). -/
theorem backspace_removes_last (chalk : Chalk) (s : InputState) (k : String)
    (hk : k = "\u0008" ∨ k = "\u007f") :
    (s.input.units ≠ [] →
      ∃ u, s.input.units = (runInput.onData chalk s k).1.input.units ++ [u]) ∧
    (s.input.units = [] → (runInput.onData chalk s k).1.input.units = []) ∧
    (∃ lines, (runInput.onData chalk s k).2 = [InputEffect.render lines]) ∧
    (runInput.onData chalk s k).1 =
      { s with input := (runInput.onData chalk s k).1.input,
               lastIndex := (runInput.onData chalk s k).1.lastIndex } := by
  rw [onData_backspace chalk s k hk]
  have hin : (renderInput chalk { s with input := s.input.sliceLast }).1.input =
      s.input.sliceLast := renderInput_input chalk _
  refine ⟨?_, ?_, ⟨_, rfl⟩, ?_⟩
  · intro hne
    refine ⟨s.input.units.getLast hne, ?_⟩
    rw [hin]
    exact (List.dropLast_append_getLast hne).symm
  · intro he
    rw [hin]
    show s.input.units.dropLast = []
    rw [he]
    rfl
  · have hf := renderInput_fields chalk { s with input := s.input.sliceLast }
    simp only [hin]
    rw [hf]

theorem backspace_removes_last_witness :
    runInput.onData plainChalk (sampleInputState (some digitsRegExp) 0 "12a") "\u007f" =
        (sampleInputState (some digitsRegExp) 0 "12",
          [InputEffect.render ["", "", "> 12▌", "", "Type your answer and press Enter."]]) ∧
      (utf16 "a😀").units = [97, 55357, 56832] ∧
      (runInput.onData plainChalk (sampleInputState none 0 "a😀") "\u0008").1 =
        sampleInputState none 0 { units := [97, 55357] } ∧
      (runInput.onData plainChalk (sampleInputState none 0 "") "\u0008").1 =
        sampleInputState none 0 "" ∧
      ∃ lines, (runInput.onData plainChalk (sampleInputState (some digitsRegExp) 0 "12a")
        "\u007f").2 = [InputEffect.render lines] :=
  ⟨rfl, rfl, rfl, rfl,
    (backspace_removes_last plainChalk (sampleInputState (some digitsRegExp) 0 "12a") "\u007f"
      (Or.inr rfl)).2.2.1⟩

theorem startsWithEscape_ne (k other : String) (h : runInput.startsWithEscape k = true)
    (hother : runInput.startsWithEscape other = false) : k ≠ other := by
  intro he
  rw [he, hother] at h
  cases h

theorem onData_escape (chalk : Chalk) (s : InputState) (k : String)
    (h : runInput.startsWithEscape k = true) : runInput.onData chalk s k = (s, []) := by
  have h1 : k ≠ "\u0003" := startsWithEscape_ne k _ h rfl
  have h2 : k ≠ "\r" := startsWithEscape_ne k _ h rfl
  have h3 : k ≠ "\n" := startsWithEscape_ne k _ h rfl
  have h4 : k ≠ "\u0008" := startsWithEscape_ne k _ h rfl
  have h5 : k ≠ "\u007f" := startsWithEscape_ne k _ h rfl
  unfold runInput.onData
  simp only [h1, h2, h3, h4, h5, h, if_false, if_true, or_self]

theorem onData_append (chalk : Chalk) (s : InputState) (k : String)
    (hk : k ≠ "\u0003" ∧ k ≠ "\r" ∧ k ≠ "\n" ∧ k ≠ "\u0008" ∧ k ≠ "\u007f")
    (h : runInput.startsWithEscape k = false) :
    runInput.onData chalk s k =
      ((renderInput chalk { s with input := s.input ++ utf16 k }).1,
        [InputEffect.render (renderInput chalk { s with input := s.input ++ utf16 k }).2]) := by
  obtain ⟨h1, h2, h3, h4, h5⟩ := hk
  unfold runInput.onData
  simp only [h1, h2, h3, h4, h5, h, if_false, or_self, Bool.false_eq_true]

theorem string_join_cons (k : String) (rest : List String) :
    String.join (k :: rest) = k ++ String.join rest := by
  have hfold : ∀ (l : List String) (init : String),
      List.foldl (fun r s => r ++ s) init l = init ++ List.foldl (fun r s => r ++ s) "" l := by
    intro l
    induction l with
    | nil => intro init; simp
    | cons x xs ih =>
      intro init
      simp only [List.foldl_cons]
      rw [ih (init ++ x), ih ("" ++ x)]
      simp [String.append_assoc]
  unfold String.join
  simp only [List.foldl_cons]
  rw [hfold rest ("" ++ k)]
  simp

theorem utf16Units_append (a b : List Char) :
    utf16Units (a ++ b) = utf16Units a ++ utf16Units b := by
  induction a with
  | nil => rfl
  | cons c rest ih => simp [utf16Units, ih]

theorem utf16_append (a b : String) : utf16 (a ++ b) = utf16 a ++ utf16 b := by
  show JSString.mk (utf16Units (a ++ b).data) =
    JSString.mk (utf16Units a.data ++ utf16Units b.data)
  rw [String.data_append, utf16Units_append]

theorem jsString_append_assoc (a b c : JSString) : a ++ b ++ c = a ++ (b ++ c) := by
  show JSString.mk ((a.units ++ b.units) ++ c.units) = JSString.mk (a.units ++ (b.units ++ c.units))
  rw [List.append_assoc]

theorem jsString_append_empty (a : JSString) : a ++ utf16 "" = a := by
  show JSString.mk (a.units ++ []) = a
  rw [List.append_nil]

/-- C14: for every sequence of input chunks none of which is the interrupt
byte, Enter, backspace or delete, the input after the sequence is the initial
input followed by the concatenation, in order, of the chunks that do not start
with the escape character; an escape-prefixed chunk changes nothing and has no
effect. -/
theorem chunks_append_in_order (chalk : Chalk) (s : InputState) (chunks : List String)
    (hchunks : ∀ k ∈ chunks,
      k ≠ "\u0003" ∧ k ≠ "\r" ∧ k ≠ "\n" ∧ k ≠ "\u0008" ∧ k ≠ "\u007f") :
    (runInput.runKeys chalk s chunks).1.input =
        s.input ++ utf16 (String.join (chunks.filter fun k => !runInput.startsWithEscape k)) ∧
      ∀ (t : InputState) (k : String), runInput.startsWithEscape k = true →
        runInput.onData chalk t k = (t, []) := by
  refine ⟨?_, fun t k hk => onData_escape chalk t k hk⟩
  induction chunks generalizing s with
  | nil => exact (jsString_append_empty s.input).symm
  | cons k rest ih =>
    have hrest := fun k2 hk2 => hchunks k2 (List.mem_cons_of_mem k hk2)
    cases hesc : runInput.startsWithEscape k
    · have hstep := onData_append chalk s k (hchunks k (List.mem_cons_self k rest)) hesc
      have hrun : runInput.runKeys chalk s (k :: rest) =
          ((runInput.runKeys chalk
              (renderInput chalk { s with input := s.input ++ utf16 k }).1 rest).1,
            [InputEffect.render
                (renderInput chalk { s with input := s.input ++ utf16 k }).2] ++
              (runInput.runKeys chalk
                (renderInput chalk { s with input := s.input ++ utf16 k }).1 rest).2) := by
        simp [runInput.runKeys, hstep]
      rw [hrun]
      simp only []
      rw [ih _ hrest, renderInput_input]
      simp only [List.filter_cons, hesc, Bool.not_false, if_true, string_join_cons, utf16_append,
        jsString_append_assoc]
    · have hstep := onData_escape chalk s k hesc
      have hrun : runInput.runKeys chalk s (k :: rest) = runInput.runKeys chalk s rest := by
        simp [runInput.runKeys, hstep]
      rw [hrun, ih s hrest]
      simp [List.filter_cons, hesc]

theorem chunks_append_in_order_witness :
    (runInput.runKeys plainChalk (sampleInputState none 0 "x") ["h", "\u001b[A", "el", "\u001b[C",
        "lo"]).1 = sampleInputState none 0 "xhello" ∧
      (runInput.runKeys plainChalk (sampleInputState none 0 "x") ["h", "\u001b[A", "el",
          "\u001b[C", "lo"]).1.input =
        utf16 "x" ++ utf16 (String.join (["h", "\u001b[A", "el", "\u001b[C", "lo"].filter
          fun k => !runInput.startsWithEscape k)) :=
  ⟨rfl,
    (chunks_append_in_order plainChalk (sampleInputState none 0 "x")
      ["h", "\u001b[A", "el", "\u001b[C", "lo"] (by decide)).1⟩

/-- C15: in both prompts and in every state the interrupt byte takes the abort
path: the handler runs `cleanup` and `process.exit(1)` and nothing else, so no
field of the state is mutated, nothing is rendered and the prompt is not
resolved. -/
theorem interrupt_aborts :
    (∀ s : State, onData s "\u0003" = (s, [Effect.cleanup, Effect.exit 1])) ∧
      ∀ (chalk : Chalk) (t : InputState),
        runInput.onData chalk t "\u0003" = (t, [InputEffect.cleanup, InputEffect.exit 1]) :=
  ⟨fun _ => rfl, fun _ _ => rfl⟩

/-- C18, failing input: for the sticky pattern `/a/y`, which `runInput` copies
with its flags, two evaluations of `isInputValid` in a row on the same input
`a` disagree: the first reports a match and leaves the match position at 1,
the second starts there and reports the matching input invalid. -/
theorem sticky_pattern_false_negative :
    runInput.initialState sampleCompile (sampleInputOpts (PatternArg.regExp stickyA)) =
        Except.ok (sampleInputState (some stickyA) 0 "") ∧
      isInputValid (sampleInputState (some stickyA) 0 "a") =
        (true, sampleInputState (some stickyA) 1 "a") ∧
      isInputValid (sampleInputState (some stickyA) 1 "a") =
        (false, sampleInputState (some stickyA) 0 "a") :=
  ⟨rfl, rfl, rfl⟩

/-! ## Render projection: theorems -/

theorem splitNewlineChars_ne_nil (chars : List Char) : splitNewlineChars chars ≠ [] := by
  induction chars with
  | nil => simp [splitNewlineChars]
  | cons c rest ih =>
    unfold splitNewlineChars
    split
    · simp
    · split <;> simp

theorem splitLines_ne_nil (text : String) : splitLines text ≠ [] := by
  unfold splitLines
  simp [splitNewlineChars_ne_nil]

theorem mapInlineDescriptions_getElem? (selectedIndex : Int) (descriptionDisplay : String)
    (choices : List Choice) (idx i : Nat) (c : Choice) (h : choices[i]? = some c) :
    (mapInlineDescriptions selectedIndex descriptionDisplay idx choices)[i]? =
      some (inlineDescriptionOf selectedIndex descriptionDisplay c (idx + i)) := by
  induction choices generalizing idx i with
  | nil => simp at h
  | cons choice rest ih =>
    cases i with
    | zero =>
      simp only [List.getElem?_cons_zero, Option.some.injEq] at h
      subst h
      simp [mapInlineDescriptions]
    | succ j =>
      simp only [List.getElem?_cons_succ] at h
      simp only [mapInlineDescriptions, List.getElem?_cons_succ]
      rw [ih (idx + 1) j h]
      have e : idx + 1 + j = idx + (j + 1) := by omega
      rw [e]

theorem inlineDescriptionsAt_build (choices : List Choice) (selectedIndex : Int)
    (descriptionDisplay descriptionPlacement : String) (i : Nat) (c : Choice)
    (h : choices[i]? = some c) :
    inlineDescriptionsAt
        (buildInlineDescriptions choices selectedIndex descriptionDisplay descriptionPlacement)
        i =
      if descriptionPlacement = "inline" ∧ descriptionDisplay ≠ "none" ∧ c.description ≠ "" ∧
          ¬ (descriptionDisplay = "selected" ∧ (i : Int) ≠ selectedIndex) then
        splitLines c.description
      else [] := by
  unfold buildInlineDescriptions inlineDescriptionsAt
  by_cases hp : descriptionPlacement = "inline"
  · by_cases hd : descriptionDisplay = "none"
    · simp [hp, hd]
    · simp only [hp, hd, ne_eq, not_true_eq_false, if_false, not_false_eq_true, true_and]
      rw [mapInlineDescriptions_getElem? selectedIndex descriptionDisplay choices 0 i c h]
      simp only [Option.getD_some, Nat.zero_add, inlineDescriptionOf]
      by_cases he : c.description = ""
      · simp [he]
      · by_cases hs : descriptionDisplay = "selected" ∧ (i : Int) ≠ selectedIndex
        · simp [he, hs]
        · simp only [he, hs, if_false, not_false_eq_true, and_self, if_true]
  · simp [hp]

/-- C17: for `descriptionPlacement` in `inline`, `footer` and
`descriptionDisplay` in `none`, `selected`, `always`, the description lines
`buildInlineDescriptions` yields for choice `i` are non-empty if and only if
the placement is `inline`, the choice has a non-empty description, and the
display is `always`, or `selected` with `i` the selected index; they are then
the description split at newlines. -/
theorem inline_descriptions_iff (choices : List Choice) (selectedIndex : Int)
    (descriptionDisplay descriptionPlacement : String) (i : Nat) (c : Choice)
    (hi : choices[i]? = some c)
    (_hp : descriptionPlacement = "inline" ∨ descriptionPlacement = "footer")
    (hd : descriptionDisplay = "none" ∨ descriptionDisplay = "selected" ∨
      descriptionDisplay = "always") :
    (inlineDescriptionsAt
          (buildInlineDescriptions choices selectedIndex descriptionDisplay descriptionPlacement)
          i ≠ [] ↔
        descriptionPlacement = "inline" ∧ c.description ≠ "" ∧
          (descriptionDisplay = "always" ∨
            (descriptionDisplay = "selected" ∧ (i : Int) = selectedIndex))) ∧
      (inlineDescriptionsAt
          (buildInlineDescriptions choices selectedIndex descriptionDisplay descriptionPlacement)
          i ≠ [] →
        inlineDescriptionsAt
            (buildInlineDescriptions choices selectedIndex descriptionDisplay
              descriptionPlacement) i =
          splitLines c.description) := by
  rw [inlineDescriptionsAt_build choices selectedIndex descriptionDisplay descriptionPlacement
    i c hi]
  have hne := splitLines_ne_nil c.description
  have h1 : ("selected" : String) ≠ "none" := by decide
  have h2 : ("always" : String) ≠ "none" := by decide
  have h3 : ("always" : String) ≠ "selected" := by decide
  constructor
  · split
    · next hc =>
      obtain ⟨hc1, hc2, hc3, hc4⟩ := hc
      refine ⟨fun _ => ⟨hc1, hc3, ?_⟩, fun _ => hne⟩
      rcases hd with hd | hd | hd
      · exact absurd hd hc2
      · right
        refine ⟨hd, ?_⟩
        by_contra hsel
        exact hc4 ⟨hd, hsel⟩
      · left; exact hd
    · next hc =>
      refine ⟨fun h => absurd rfl h, ?_⟩
      rintro ⟨hi1, hi2, hi3⟩
      exfalso
      apply hc
      refine ⟨hi1, ?_, hi2, ?_⟩
      · rcases hi3 with h | ⟨h, -⟩ <;> rw [h] <;> assumption
      · rintro ⟨hs, hn⟩
        rcases hi3 with h | ⟨-, h⟩
        · rw [h] at hs
          exact h3 hs
        · exact hn h
  · split
    · intro _; rfl
    · intro h; exact absurd rfl h

theorem inline_descriptions_iff_witness :
    inlineDescriptionsAt
        (buildInlineDescriptions
          [{ key := "1", label := "One", value := num 1, description := "first\nchoice" },
            { key := "2", label := "Two", value := num 2, description := "second" }]
          0 "selected" "inline") 0 = ["first", "choice"] ∧
      inlineDescriptionsAt
        (buildInlineDescriptions
          [{ key := "1", label := "One", value := num 1, description := "first\nchoice" },
            { key := "2", label := "Two", value := num 2, description := "second" }]
          0 "selected" "inline") 1 = [] ∧
      (inlineDescriptionsAt
          (buildInlineDescriptions
            [{ key := "1", label := "One", value := num 1, description := "first\nchoice" },
              { key := "2", label := "Two", value := num 2, description := "second" }]
            0 "selected" "inline") 0 ≠ [] ↔
        ("inline" : String) = "inline" ∧ ("first\nchoice" : String) ≠ "" ∧
          (("selected" : String) = "always" ∨
            (("selected" : String) = "selected" ∧ ((0 : Nat) : Int) = 0))) :=
  ⟨by decide, by decide,
    (inline_descriptions_iff
      [{ key := "1", label := "One", value := num 1, description := "first\nchoice" },
        { key := "2", label := "Two", value := num 2, description := "second" }]
      0 "selected" "inline" 0
      { key := "1", label := "One", value := num 1, description := "first\nchoice" }
      rfl (Or.inl rfl) (Or.inr (Or.inl rfl))).1⟩

theorem footer_block_eq {α : Type} [DecidableEq α] (blank : α) (footerLines : List α) :
    (if footerLines.length ≠ 0 then blank :: footerLines else []) =
      if footerLines = [] then [] else blank :: footerLines := by
  cases footerLines <;> simp

theorem choiceBlocks_eq_flatMap (state : State) (choices : List Choice) (idx : Nat)
    (rest : List Choice) (hrest : ∀ j c, rest[j]? = some c → choices[idx + j]? = some c) :
    choiceBlocks state
        (buildInlineDescriptions choices state.selectedIndex state.descriptionDisplay
          state.descriptionPlacement) idx rest =
      (rest.enumFrom idx).flatMap fun p =>
        choiceLine state p.2 p.1 ::
          descriptionLines state
            (if state.descriptionPlacement = "inline" ∧ state.descriptionDisplay ≠ "none" ∧
                p.2.description ≠ "" ∧
                ¬ (state.descriptionDisplay = "selected" ∧ (p.1 : Int) ≠ state.selectedIndex) then
              splitLines p.2.description
            else []) p.1 := by
  induction rest generalizing idx with
  | nil => simp [choiceBlocks]
  | cons c tail ih =>
    have hc : choices[idx]? = some c := by simpa using hrest 0 c (by simp)
    have htail : ∀ j c2, tail[j]? = some c2 → choices[idx + 1 + j]? = some c2 := by
      intro j c2 hj
      have := hrest (j + 1) c2 (by simpa using hj)
      have e : idx + 1 + j = idx + (j + 1) := by omega
      rw [e]
      exact this
    simp only [choiceBlocks, List.enumFrom_cons, List.flatMap_cons]
    rw [ih (idx + 1) htail, inlineDescriptionsAt_build choices state.selectedIndex
      state.descriptionDisplay state.descriptionPlacement idx c hc]

/-- C16, counterexample: with the footer hint disabled and no footer
description the footer is empty, and `render` ends with the last choice line:
it emits no blank separator line after the choices. -/
theorem render_without_footer :
    render { sampleState abcChoices 0 true false with showFooterHint := false } =
        ["", "", ">   a) Apple", "    b) Banana", "    c) Cherry"] ∧
      buildFooterLines abcChoices 0 "selected" "inline" false
        "Use arrows or hotkeys, Enter to choose." false = [] ∧
      render { sampleState abcChoices 0 true false with showFooterHint := false } ≠
        ["", "", ">   a) Apple", "    b) Banana", "    c) Cherry"] ++ [""] ++
          buildFooterLines abcChoices 0 "selected" "inline" false
            "Use arrows or hotkeys, Enter to choose." false := by
  decide

/-- C16 (amended): the lines `render` produces are, in this order, the source
lines of the question, one blank line, then for each choice in order its choice
line (the indicator `>` for the selected choice and a space for every other,
three spaces, `key) ` when the key is non-empty, the label; passed through the
highlight function exactly when selected) immediately followed by that choice's
inline description lines (indented by eight spaces, highlighted when selected),
and then, only when there is at least one footer line, one blank separator line
followed by the footer lines. -/
theorem render_line_order (state : State) :
    render state =
        splitLines state.question ++ [""] ++
          (state.choices.enum.flatMap fun p =>
            choiceLine state p.2 p.1 ::
              descriptionLines state
                (if state.descriptionPlacement = "inline" ∧ state.descriptionDisplay ≠ "none" ∧
                    p.2.description ≠ "" ∧
                    ¬ (state.descriptionDisplay = "selected" ∧
                      (p.1 : Int) ≠ state.selectedIndex) then
                  splitLines p.2.description
                else []) p.1) ++
          (if buildFooterLines state.choices state.selectedIndex state.descriptionDisplay
                state.descriptionPlacement state.showFooterHint state.hintText
                state.confirming = [] then []
            else "" :: buildFooterLines state.choices state.selectedIndex
              state.descriptionDisplay state.descriptionPlacement state.showFooterHint
              state.hintText state.confirming) ∧
      (∀ (c : Choice) (i : Nat),
        choiceLine state c i =
          if (i : Int) = state.selectedIndex then
            state.highlightFn (">" ++ "   " ++ (if c.key ≠ "" then c.key ++ ") " else "") ++ c.label)
          else " " ++ "   " ++ (if c.key ≠ "" then c.key ++ ") " else "") ++ c.label) ∧
      ∀ (descLines : List String) (i : Nat),
        descriptionLines state descLines i =
          descLines.map fun desc =>
            if (i : Int) = state.selectedIndex then state.highlightFn ("        " ++ desc)
            else "        " ++ desc := by
  refine ⟨?_, ?_, fun _ _ => rfl⟩
  · unfold render
    simp only []
    rw [choiceBlocks_eq_flatMap state state.choices 0 state.choices (by simp)]
    rw [footer_block_eq]
    rfl
  · intro c i
    unfold choiceLine
    simp only []
    split <;> rfl

/-- C19, counterexample: a fresh prompt with the pattern `^\d+$` shows the
validation error message in its first render, before any keystroke. -/
theorem first_render_shows_warning :
    runInput.initialState sampleCompile (sampleInputOpts (PatternArg.source "^\\d+$")) =
        Except.ok (sampleInputState (some digitsRegExp) 0 "") ∧
      (renderInput plainChalk (sampleInputState (some digitsRegExp) 0 "")).2 =
        ["", "", "> ▌", "", "Input does not match required format.",
          "Type your answer and press Enter."] :=
  ⟨rfl, by decide⟩

theorem initialState_fresh (compile : String → Except String (List Nat → Nat → Option Nat))
    (options : InputOpts) (s0 : InputState)
    (h : runInput.initialState compile options = Except.ok s0) :
    s0.input = utf16 "" ∧ s0.lastIndex = 0 := by
  unfold runInput.initialState at h
  split at h
  · cases h
  · cases h
    exact ⟨rfl, rfl⟩

/-- C19 (amended): the footer of `renderInput` shows the validation error
message exactly when a pattern is configured and `isInputValid` reports the
current input invalid, followed by the hint line if enabled; no dirty check
takes part.  In particular the first render of a fresh prompt shows the message
exactly when a pattern is configured that the empty input does not match. -/
theorem renderInput_footer (chalk : Chalk) (state : InputState) :
    (renderInput chalk state).2 =
        (splitLines state.question).map utf16 ++ [utf16 ""] ++
          [utf16 "> " ++
            (if state.input.length > 0 then state.input
              else if state.placeholder ≠ "" then utf16 (chalk.gray state.placeholder)
              else utf16 "") ++
            utf16 (if ¬ state.input.length > 0 ∧ state.placeholder ≠ "" then ""
              else if state.cursorVisible then state.cursor
              else " ")] ++
          (if ((if state.validationRegex.isSome = true ∧ (isInputValid state).1 = false then
                  [utf16 (chalk.red state.invalidMessage)]
                else []) ++
                (if state.showFooterHint then [utf16 state.hintText] else [])) = [] then []
            else
              utf16 "" ::
                ((if state.validationRegex.isSome = true ∧ (isInputValid state).1 = false then
                    [utf16 (chalk.red state.invalidMessage)]
                  else []) ++
                  (if state.showFooterHint then [utf16 state.hintText] else []))) ∧
      ∀ (compile : String → Except String (List Nat → Nat → Option Nat)) (options : InputOpts)
        (s0 : InputState), runInput.initialState compile options = Except.ok s0 →
        ((s0.validationRegex.isSome = true ∧ (isInputValid s0).1 = false) ↔
          ∃ re, s0.validationRegex = some re ∧ (regExpTest re 0 (utf16 "")).1 = false) := by
  constructor
  · have hfoot : inputFooterLines chalk state (isInputValid state).1 =
        (if state.validationRegex.isSome = true ∧ (isInputValid state).1 = false then
            [utf16 (chalk.red state.invalidMessage)]
          else []) ++
          (if state.showFooterHint then [utf16 state.hintText] else []) := by
      unfold inputFooterLines
      cases state.validationRegex.isSome <;> cases (isInputValid state).1 <;> simp
    unfold renderInput
    simp only [hfoot]
    rw [footer_block_eq]
  · intro compile options s0 h0
    obtain ⟨hin, hli⟩ := initialState_fresh compile options s0 h0
    cases hre : s0.validationRegex with
    | none => simp
    | some re =>
      have hv : (isInputValid s0).1 = (regExpTest re 0 (utf16 "")).1 := by
        unfold isInputValid
        rw [hre]
        simp only [hli, hin, ite_self]
      simp [hv]

theorem renderInput_footer_witness :
    runInput.initialState sampleCompile (sampleInputOpts (PatternArg.source "^\\d+$")) =
        Except.ok (sampleInputState (some digitsRegExp) 0 "") ∧
      (((sampleInputState (some digitsRegExp) 0 "").validationRegex.isSome = true ∧
          (isInputValid (sampleInputState (some digitsRegExp) 0 "")).1 = false) ↔
        ∃ re, (sampleInputState (some digitsRegExp) 0 "").validationRegex = some re ∧
          (regExpTest re 0 (utf16 "")).1 = false) :=
  ⟨rfl, (renderInput_footer plainChalk (sampleInputState (some digitsRegExp) 0 "")).2
    sampleCompile (sampleInputOpts (PatternArg.source "^\\d+$")) _ rfl⟩

/-! ## Hotkeys of array choices -/

theorem digitChar_val (k : Nat) (hk : k < 10) : (Nat.digitChar k).toNat - 48 = k := by
  interval_cases k <;> rfl

theorem digitChar_isDigit (k : Nat) (hk : k < 10) :
    48 ≤ (Nat.digitChar k).toNat ∧ (Nat.digitChar k).toNat ≤ 57 := by
  interval_cases k <;> decide

theorem decodeDigits_toDigitsCore (fuel n : Nat) (ds : List Char) (hfuel : n < fuel) :
    decodeDigits (Nat.toDigitsCore 10 fuel n ds) = n * 10 ^ ds.length + decodeDigits ds := by
  induction fuel generalizing n ds with
  | zero => omega
  | succ fuel ih =>
    unfold Nat.toDigitsCore
    simp only []
    have hmod : n % 10 < 10 := Nat.mod_lt n (by decide)
    split
    · next h0 =>
      have hn : n = n % 10 := by omega
      simp only [decodeDigits, digitChar_val (n % 10) hmod]
      rw [← hn]
    · next h0 =>
      have hlt : n / 10 < fuel := by omega
      rw [ih (n / 10) (Nat.digitChar (n % 10) :: ds) hlt]
      simp only [decodeDigits, digitChar_val (n % 10) hmod, List.length_cons, pow_succ]
      have hdm := Nat.div_add_mod n 10
      conv_rhs => rw [← hdm]
      ring

theorem decodeDigits_toString (n : Nat) : decodeDigits (toString n).data = n := by
  show decodeDigits (Nat.toDigitsCore 10 (n + 1) n []) = n
  rw [decodeDigits_toDigitsCore (n + 1) n [] (by omega)]
  simp [decodeDigits]

theorem toString_nat_injective (m n : Nat) (h : toString m = toString n) : m = n := by
  have := congrArg (fun s : String => decodeDigits s.data) h
  simpa [decodeDigits_toString] using this

theorem toDigitsCore_digits (fuel n : Nat) (ds : List Char)
    (hds : ∀ c ∈ ds, 48 ≤ c.toNat ∧ c.toNat ≤ 57) :
    ∀ c ∈ Nat.toDigitsCore 10 fuel n ds, 48 ≤ c.toNat ∧ c.toNat ≤ 57 := by
  induction fuel generalizing n ds with
  | zero => exact hds
  | succ fuel ih =>
    have hmod : n % 10 < 10 := Nat.mod_lt n (by decide)
    have hcons : ∀ c ∈ Nat.digitChar (n % 10) :: ds, 48 ≤ c.toNat ∧ c.toNat ≤ 57 := by
      intro c hc
      rcases List.mem_cons.mp hc with rfl | hc
      · exact digitChar_isDigit _ hmod
      · exact hds c hc
    unfold Nat.toDigitsCore
    simp only []
    split
    · exact hcons
    · exact ih _ _ hcons

theorem toDigitsCore_ne_nil (fuel n : Nat) (ds : List Char) (h : 0 < fuel ∨ ds ≠ []) :
    Nat.toDigitsCore 10 fuel n ds ≠ [] := by
  induction fuel generalizing n ds with
  | zero =>
    rcases h with h | h
    · omega
    · exact h
  | succ fuel ih =>
    unfold Nat.toDigitsCore
    simp only []
    split
    · simp
    · exact ih _ _ (Or.inr (by simp))

theorem toString_nat_digits (n : Nat) : ∀ c ∈ (toString n).data, 48 ≤ c.toNat ∧ c.toNat ≤ 57 :=
  toDigitsCore_digits (n + 1) n [] (by simp)

theorem toString_nat_ne_empty (n : Nat) : toString n ≠ "" := by
  intro h
  have hd : (toString n).data = [] := by rw [h]
  exact toDigitsCore_ne_nil (n + 1) n [] (Or.inl (by omega)) hd

theorem toLower_digit (c : Char) (h : 48 ≤ c.toNat ∧ c.toNat ≤ 57) : c.toLower = c := by
  unfold Char.toLower
  simp only []
  split
  · omega
  · rfl

theorem toLowerCase_toString_nat (n : Nat) : toLowerCase (toString n) = toString n := by
  unfold toLowerCase
  have hmap : ∀ l : List Char, (∀ c ∈ l, 48 ≤ c.toNat ∧ c.toNat ≤ 57) →
      l.map Char.toLower = l := by
    intro l hl
    induction l with
    | nil => rfl
    | cons c rest ih =>
      simp only [List.map_cons]
      rw [toLower_digit c (hl c (List.mem_cons_self c rest)),
        ih (fun d hd => hl d (List.mem_cons_of_mem c hd))]
  rw [hmap _ (toString_nat_digits n)]

theorem toString_nat_ne_of_nondigit (n : Nat) (other : String)
    (h : ∃ c ∈ other.data, ¬ (48 ≤ c.toNat ∧ c.toNat ≤ 57)) : toString n ≠ other := by
  intro he
  obtain ⟨c, hc, hnd⟩ := h
  rw [← he] at hc
  exact hnd (toString_nat_digits n c hc)

theorem pushEntry_array_key (item : JSVal) (idx : Nat) :
    (pushEntry (toString (idx + 1)) item idx).key = toString (idx + 1) := by
  unfold pushEntry
  simp only []
  split <;> rfl

theorem pushArray_key (items : List JSVal) (i : Nat) (c : Choice)
    (h : (pushArray 0 items)[i]? = some c) : c.key = toString (i + 1) := by
  have hlt : i < items.length := by
    have := (List.getElem?_eq_some_iff.mp h).1
    rwa [pushArray_length] at this
  rw [pushArray_getElem? items 0 i hlt] at h
  simp only [Nat.zero_add, Option.some.injEq] at h
  rw [← h]
  exact pushEntry_array_key _ _

theorem findIndex_array_hotkey (items : List JSVal) (i : Nat) (hi : i < items.length) :
    findIndex (fun choice => toLowerCase choice.key == toLowerCase (toString (i + 1)))
        (pushArray 0 items) = (i : Int) := by
  have hlen : i < (pushArray 0 items).length := by rw [pushArray_length]; exact hi
  unfold findIndex
  have hfound : (pushArray 0 items).findIdx?
      (fun choice => toLowerCase choice.key == toLowerCase (toString (i + 1))) = some i := by
    rw [List.findIdx?_eq_some_iff_getElem]
    refine ⟨hlen, ?_, ?_⟩
    · have hk := pushArray_key items i _ (List.getElem?_eq_getElem hlen)
      simp [hk]
    · intro j hj
      have hjlen : j < (pushArray 0 items).length := by omega
      have hk := pushArray_key items j _ (List.getElem?_eq_getElem hjlen)
      simp only [hk, toLowerCase_toString_nat, beq_iff_eq]
      intro he
      have := toString_nat_injective _ _ he
      omega
  rw [hfound]

theorem dense_array_hotkeys (items : List JSVal) (hne : items ≠ []) :
    ∃ choices, normalizeChoices (arr items) = Except.ok choices ∧ choices ≠ [] ∧
      (∀ c ∈ choices, c.key ≠ "") ∧
      (∀ (i j : Nat) (ci cj : Choice), choices[i]? = some ci → choices[j]? = some cj →
        toLowerCase ci.key = toLowerCase cj.key → i = j) ∧
      ∀ (state : State) (i : Nat), state.choices = choices → state.confirming = false →
        i < choices.length →
        (onData state (toString (i + 1))).1.selectedIndex = (i : Int) := by
  refine ⟨pushArray 0 items, rfl, ?_, ?_, ?_, ?_⟩
  · intro h
    have := congrArg List.length h
    rw [pushArray_length] at this
    exact hne (List.length_eq_zero.mp this)
  · intro c hc
    obtain ⟨i, hi⟩ := List.getElem?_of_mem hc
    rw [pushArray_key items i c hi]
    exact toString_nat_ne_empty _
  · intro i j ci cj hi hj hk
    rw [pushArray_key items i ci hi, pushArray_key items j cj hj, toLowerCase_toString_nat,
      toLowerCase_toString_nat] at hk
    have := toString_nat_injective _ _ hk
    omega
  · intro state i hchoices hbrowsing hi
    have hilen : i < items.length := by rwa [pushArray_length] at hi
    have h1 : toString (i + 1) ≠ "\u0003" :=
      toString_nat_ne_of_nondigit _ _ ⟨'\x03', by decide, by decide⟩
    have h2 : toString (i + 1) ≠ "\u001b[A" :=
      toString_nat_ne_of_nondigit _ _ ⟨'A', by decide, by decide⟩
    have h3 : toString (i + 1) ≠ "\u001b[B" :=
      toString_nat_ne_of_nondigit _ _ ⟨'B', by decide, by decide⟩
    have hfind := findIndex_array_hotkey items i hilen
    have hne1 : (i : Int) ≠ -1 := by omega
    unfold onData onDataWith
    simp only [h1, h2, h3, hbrowsing, hchoices, hfind, hne1, if_false, if_true, ne_eq,
      not_false_eq_true, Bool.false_eq_true]
    split <;> rfl

theorem pushArray_eq_pushSparse (items : List JSVal) (idx : Nat) :
    pushArray idx items = pushSparse idx (items.map some) := by
  induction items generalizing idx with
  | nil => rfl
  | cons item rest ih => simp [pushArray, pushSparse, ih]

theorem pushSparse_keys (slots : List (Option JSVal)) (idx : Nat) :
    ∃ ps : List Nat,
      (pushSparse idx slots).map Choice.key = ps.map (fun p => toString (p + 1)) ∧
        ps.Pairwise (· < ·) ∧ ∀ p ∈ ps, idx ≤ p := by
  induction slots generalizing idx with
  | nil => exact ⟨[], rfl, List.Pairwise.nil, by simp⟩
  | cons slot rest ih =>
    obtain ⟨ps, hkeys, hpair, hge⟩ := ih (idx + 1)
    cases slot with
    | none =>
      exact ⟨ps, by simpa [pushSparse] using hkeys, hpair, fun p hp => by
        have := hge p hp
        omega⟩
    | some item =>
      refine ⟨idx :: ps, ?_, ?_, ?_⟩
      · simp [pushSparse, pushEntry_array_key, hkeys]
      · refine List.Pairwise.cons (fun p hp => ?_) hpair
        have := hge p hp
        omega
      · intro p hp
        rcases List.mem_cons.mp hp with rfl | hp
        · exact Nat.le_refl _
        · have := hge p hp
          omega

theorem decimal_key_at (choices : List Choice) (ps : List Nat)
    (hkeys : choices.map Choice.key = ps.map (fun p => toString (p + 1))) (i : Nat) (c : Choice)
    (h : choices[i]? = some c) : ∃ p, ps[i]? = some p ∧ c.key = toString (p + 1) := by
  have hi : (choices.map Choice.key)[i]? = some c.key := by simp [h]
  rw [hkeys, List.getElem?_map] at hi
  cases hp : ps[i]? with
  | none => simp [hp] at hi
  | some p =>
    simp only [hp, Option.map_some', Option.some.injEq] at hi
    exact ⟨p, rfl, hi.symm⟩

theorem decimal_keys_distinct (choices : List Choice) (ps : List Nat)
    (hkeys : choices.map Choice.key = ps.map (fun p => toString (p + 1)))
    (hpair : ps.Pairwise (· < ·)) (i j : Nat) (ci cj : Choice)
    (hi : choices[i]? = some ci) (hj : choices[j]? = some cj)
    (hk : toLowerCase ci.key = toLowerCase cj.key) : i = j := by
  obtain ⟨p, hp, hpk⟩ := decimal_key_at choices ps hkeys i ci hi
  obtain ⟨q, hq, hqk⟩ := decimal_key_at choices ps hkeys j cj hj
  rw [hpk, hqk, toLowerCase_toString_nat, toLowerCase_toString_nat] at hk
  have hpq : p = q := by
    have := toString_nat_injective _ _ hk
    omega
  obtain ⟨hil, hpi⟩ := List.getElem?_eq_some_iff.mp hp
  obtain ⟨hjl, hqj⟩ := List.getElem?_eq_some_iff.mp hq
  have hall := List.pairwise_iff_getElem.mp hpair
  rcases Nat.lt_trichotomy i j with hlt | heq | hgt
  · have := hall i j hil hjl hlt
    omega
  · exact heq
  · have := hall j i hjl hil hgt
    omega

theorem decimal_key_selects (choices : List Choice) (ps : List Nat)
    (hkeys : choices.map Choice.key = ps.map (fun p => toString (p + 1)))
    (hpair : ps.Pairwise (· < ·)) (state : State) (i : Nat) (c : Choice)
    (hchoices : state.choices = choices) (hbrowsing : state.confirming = false)
    (hi : choices[i]? = some c) : (onData state c.key).1.selectedIndex = (i : Int) := by
  obtain ⟨p, -, hpk⟩ := decimal_key_at choices ps hkeys i c hi
  obtain ⟨hlen, hget⟩ := List.getElem?_eq_some_iff.mp hi
  have h1 : c.key ≠ "\u0003" := by
    rw [hpk]; exact toString_nat_ne_of_nondigit _ _ ⟨'\x03', by decide, by decide⟩
  have h2 : c.key ≠ "\u001b[A" := by
    rw [hpk]; exact toString_nat_ne_of_nondigit _ _ ⟨'A', by decide, by decide⟩
  have h3 : c.key ≠ "\u001b[B" := by
    rw [hpk]; exact toString_nat_ne_of_nondigit _ _ ⟨'B', by decide, by decide⟩
  have hfind : findIndex (fun choice => toLowerCase choice.key == toLowerCase c.key) choices =
      (i : Int) := by
    unfold findIndex
    have hfound : choices.findIdx?
        (fun choice => toLowerCase choice.key == toLowerCase c.key) = some i := by
      rw [List.findIdx?_eq_some_iff_getElem]
      refine ⟨hlen, by simp [hget], ?_⟩
      intro j hj
      have hjlen : j < choices.length := by omega
      simp only [beq_iff_eq]
      intro he
      have := decimal_keys_distinct choices ps hkeys hpair j i choices[j] c
        (List.getElem?_eq_getElem hjlen) hi he
      omega
    rw [hfound]
  have hne1 : (i : Int) ≠ -1 := by omega
  unfold onData onDataWith
  simp only [h1, h2, h3, hbrowsing, hchoices, hfind, hne1, if_false, if_true, ne_eq,
    not_false_eq_true, Bool.false_eq_true]
  split <;> rfl

/-- C20, counterexample: the array `["a", , "c"]` gives two choices with the
keys `1` and `3`.  In the state built from it the keystroke `2`, the decimal
string of position 1 plus one, matches no key and leaves `selectedIndex` at 0. -/
theorem sparse_array_hotkey_misses :
    ∃ s, createState plainChalk
          (sampleOpts (sparse [some (str "a"), none, some (str "c")]) none none) =
        Except.ok s ∧
      s.choices.map Choice.key = ["1", "3"] ∧ s.confirming = false ∧ s.selectedIndex = 0 ∧
      (onData s (toString (1 + 1))).1.selectedIndex = 0 ∧
      (onData s (toString (1 + 1))).1.selectedIndex ≠ ((1 : Nat) : Int) := by
  refine ⟨_, rfl, rfl, rfl, rfl, rfl, ?_⟩
  decide

/-- C20 (amended): for every array of choices the keys `normalizeChoices`
produces are non-empty and pairwise distinct, also when compared
case-insensitively, so every choice is reachable by hotkey: in Browsing the
keystroke equal to the key of the choice at position `i` sets `selectedIndex` to
exactly `i`.  For an array without holes that key is the decimal string of
`i + 1`, and a non-empty array gives a non-empty sequence. -/
theorem array_hotkeys_reach_every_choice (slots : List (Option JSVal)) :
    ∃ choices, normalizeChoices (sparse slots) = Except.ok choices ∧
      (∀ c ∈ choices, c.key ≠ "") ∧
      (∀ (i j : Nat) (ci cj : Choice), choices[i]? = some ci → choices[j]? = some cj →
        toLowerCase ci.key = toLowerCase cj.key → i = j) ∧
      (∀ (state : State) (i : Nat) (c : Choice), state.choices = choices →
        state.confirming = false → choices[i]? = some c →
        (onData state c.key).1.selectedIndex = (i : Int)) ∧
      ∀ items : List JSVal, slots = items.map some →
        normalizeChoices (arr items) = Except.ok choices ∧ (items ≠ [] → choices ≠ []) ∧
        ∀ (state : State) (i : Nat), state.choices = choices → state.confirming = false →
          i < choices.length →
          (onData state (toString (i + 1))).1.selectedIndex = (i : Int) := by
  obtain ⟨ps, hkeys, hpair, -⟩ := pushSparse_keys slots 0
  refine ⟨pushSparse 0 slots, rfl, ?_, ?_, ?_, ?_⟩
  · intro c hc
    obtain ⟨i, hi⟩ := List.getElem?_of_mem hc
    obtain ⟨p, -, hpk⟩ := decimal_key_at _ ps hkeys i c hi
    rw [hpk]
    exact toString_nat_ne_empty _
  · exact fun i j ci cj hi hj hk => decimal_keys_distinct _ ps hkeys hpair i j ci cj hi hj hk
  · exact fun state i c hchoices hbrowsing hi =>
      decimal_key_selects _ ps hkeys hpair state i c hchoices hbrowsing hi
  · intro items hitems
    have heq : pushArray 0 items = pushSparse 0 slots := by
      rw [hitems]; exact pushArray_eq_pushSparse items 0
    refine ⟨by rw [← heq]; rfl, ?_, ?_⟩
    · intro hne h
      have hlen := congrArg List.length h
      rw [← heq, pushArray_length] at hlen
      exact hne (List.length_eq_zero.mp hlen)
    · intro state i hchoices hbrowsing hi
      rw [← heq] at hchoices hi
      have hilen : i < items.length := by rwa [pushArray_length] at hi
      have hget := pushArray_getElem? items 0 i hilen
      have hkey := pushArray_key items i _ hget
      have := decimal_key_selects _ ps hkeys hpair state i _ (heq ▸ hchoices) hbrowsing
        (heq ▸ hget)
      rw [hkey] at this
      exact this

theorem array_hotkeys_reach_every_choice_witness :
    (onData (sampleState (pushSparse 0 [some (str "a"), none, some (str "c")]) 0 true false)
        "3").1.selectedIndex = 1 ∧
      (onData (sampleState (pushArray 0 [str "a", obj [("key", str "1")], str "c"]) 0 true false)
        "2").1.selectedIndex = 1 ∧
      ∃ choices,
        normalizeChoices (sparse [some (str "a"), none, some (str "c")]) = Except.ok choices ∧
        (∀ c ∈ choices, c.key ≠ "") ∧
        (∀ (i j : Nat) (ci cj : Choice), choices[i]? = some ci → choices[j]? = some cj →
          toLowerCase ci.key = toLowerCase cj.key → i = j) ∧
        (∀ (state : State) (i : Nat) (c : Choice), state.choices = choices →
          state.confirming = false → choices[i]? = some c →
          (onData state c.key).1.selectedIndex = (i : Int)) ∧
        ∀ items : List JSVal, [some (str "a"), none, some (str "c")] = items.map some →
          normalizeChoices (arr items) = Except.ok choices ∧ (items ≠ [] → choices ≠ []) ∧
          ∀ (state : State) (i : Nat), state.choices = choices → state.confirming = false →
            i < choices.length →
            (onData state (toString (i + 1))).1.selectedIndex = (i : Int) :=
  ⟨rfl, rfl, array_hotkeys_reach_every_choice [some (str "a"), none, some (str "c")]⟩

end CliBoxPrompt
